import Mathlib

/-
  Verification of the gitbrute core (gitbrute.go): a parallel brute-force
  search that mutates a hidden "nonce" field inside a serialized git commit
  object until the object's SHA-1 hex digest matches a pattern.

  Byte buffers are modelled as `List Nat` (each element a byte value).
  The SHA-1 digest and the compiled regexp are external library calls in the
  source; they are abstracted as function parameters (`digest`, `rmatch`)
  where the claims do not depend on their internals.  Loops whose
  termination is itself in question (the `writeNonce` goto loop) are given
  fuel-indexed semantics; termination claims become statements that some
  fuel yields a result.
-/

namespace Gitbrute

/-- bytes.Index-style scan: position of the first occurrence of `pat` as a
contiguous sublist of `s`, if any (models Go `bytes.Index` which returns the
first index, or -1). -/
def firstMatch (pat : List Nat) : List Nat → Option Nat
  | [] => if pat.isPrefixOf ([] : List Nat) then some 0 else none
  | a :: t => if pat.isPrefixOf (a :: t) then some 0 else (firstMatch pat t).map (· + 1)

/-- Go `bytes.Index`: first index of `pat` in `s`, or -1 when absent. -/
def bytesIndex (s pat : List Nat) : Int :=
  match firstMatch pat s with
  | some i => (i : Int)
  | none => -1

/-- Go `bytes.Contains`. -/
def bytesContains (s pat : List Nat) : Bool :=
  (firstMatch pat s).isSome

/-- Decimal digit expansion helper (most significant first), fuel-indexed. -/
def decDigitsCore : Nat → Nat → List Nat
  | 0, _ => []
  | f + 1, n => if n = 0 then [] else decDigitsCore f (n / 10) ++ [48 + n % 10]

/-- ASCII decimal rendering of a natural number, as produced by Go
`fmt.Sprintf("%d", n)`. -/
def decDigits (n : Nat) : List Nat :=
  if n = 0 then [48] else decDigitsCore n n

/-- The bytes of the literal "commit " used by fixHeader's Sprintf. -/
def commitLit : List Nat := [99, 111, 109, 109, 105, 116, 32]

/-- fixHeader from gitbrute.go: strip everything through the first NUL, then
re-wrap the remaining content with a "commit <len>\0" header. -/
def fixHeader (obj : List Nat) : List Nat :=
  commitLit ++ decDigits (obj.drop (bytesIndex obj [0] + 1).toNat).length ++ [0]
    ++ obj.drop (bytesIndex obj [0] + 1).toNat

/-- The nonceHeader string "\n" + name + " " built in the source. -/
def nonceHdr (name : List Nat) : List Nat := 10 :: (name ++ [32])

/-- addOrFindNonce from gitbrute.go.  If the buffer does not contain
"\n<name> ", insert it immediately before the first "\n\n" and re-derive the
header; then locate "\n<name> " and advance an index until the next byte is
a newline.  (Go panics when "\n\n" is absent or the line is unterminated;
the model, being total, returns junk there — all theorems hypothesize the
well-formed cases.) -/
def addOrFindNonce (name obj : List Nat) : List Nat × Nat :=
  let nh := nonceHdr name
  let obj1 :=
    if bytesContains obj nh then obj
    else
      let i := (bytesIndex obj [10, 10]).toNat
      fixHeader (obj.take i ++ nh ++ obj.drop i)
  let j := (bytesIndex obj1 nh).toNat
  (obj1, j + (obj1.drop (j + 1)).findIdx (fun b => b == 10))

/-- growNonce from gitbrute.go: insert one '0' byte immediately after the
"\n<name> " marker, then re-derive the header. -/
def growNonce (name obj : List Nat) : List Nat :=
  let nh := nonceHdr name
  let i := (bytesIndex obj nh + (nh.length : Int)).toNat
  fixHeader (obj.take i ++ 48 :: obj.drop i)

/-- Result of one pass of the digit-writing loop in bruteForce. -/
inductive RenderRes where
  | ok (obj : List Nat)
  | needGrow (obj : List Nat)
  | stuck
  deriving Repr, DecidableEq

/-- The inner `for nonce > 0` loop of bruteForce: write base-r digits of
`nonce` right-to-left starting at index `i`; when the byte at the cursor is
a space, signal that the field must grow (the partial writes persist, as in
the in-place Go code).  Fuel-indexed so the r = 1 divergence stays total. -/
def renderLoop (alpha : List Nat) : Nat → List Nat → Nat → Nat → RenderRes
  | _, obj, _, 0 => .ok obj
  | 0, _, _, _ + 1 => .stuck
  | f + 1, obj, i, n + 1 =>
    if obj.getD i 0 = 32 then .needGrow obj
    else renderLoop alpha f
      (obj.set i (alpha.getD ((n + 1) % alpha.length) 0)) (i - 1) ((n + 1) / alpha.length)

/-- The `writeNonce:` goto loop of bruteForce: attempt to render `t`; on
hitting the space, grow the field, bump the index by one, and restart.
Fuel bounds the number of grow-and-restart rounds. -/
def writeNonce (alpha name : List Nat) : Nat → List Nat → Nat → Nat → Option (List Nat × Nat)
  | 0, _, _, _ => none
  | fuel + 1, obj, idx, t =>
    match renderLoop alpha t obj idx t with
    | .ok obj2 => some (obj2, idx)
    | .needGrow obj2 => writeNonce alpha name fuel (growNonce name obj2) (idx + 1) t
    | .stuck => none

/-- One hex digit character, per the "0123456789abcdef" table. -/
def hexDigit (k : Nat) : Nat := if k < 10 then 48 + k else 87 + k

/-- One iteration of hexInPlace's loop body at index `i`. -/
def hexStep (a : List Nat) (i : Nat) : List Nat :=
  let b := a.getD i 0
  (a.set (2 * i) (hexDigit (b / 16))).set (2 * i + 1) (hexDigit (b % 16))

/-- hexInPlace's loop, iterating i = n-1 down to 0 over the backing array. -/
def hexLoop : List Nat → Nat → List Nat
  | a, 0 => a
  | a, i + 1 => hexLoop (hexStep a i) i

/-- hexInPlace from gitbrute.go, operating on the backing array `a` of a
slice of length `n` (the Go slice v with cap ≥ 2n): run the right-to-left
loop and return the reslice of length 2n. -/
def hexInPlace (a : List Nat) (n : Nat) : List Nat :=
  (hexLoop a n).take (2 * n)

/-- Reference lowercase hex encoding of a byte list. -/
def hexBytes : List Nat → List Nat
  | [] => []
  | b :: t => hexDigit (b / 16) :: hexDigit (b % 16) :: hexBytes t

/-- The call-site expression re.Match(hexInPlace(s1.Sum(hexBuf[:0]))) in
bruteForce, with the SHA-1 state abstracted into `digest`: `Sum` appends the
digest to the empty reslice of the capacity-40 backing array. -/
def sumThenHex (digest : List Nat → List Nat) (obj : List Nat) : List Nat :=
  let d := digest obj
  hexInPlace (d ++ List.replicate (40 - d.length) 0) d.length

/-- The candidate-processing loop of bruteForce: `doneAt k` models whether
the done channel is observed closed at iteration `k` (any behavior of the
cancellation gate is allowed); candidates arrive as Go ints.  `none` means
the worker returns without publishing; `some w` means it sends `w` on the
winner channel and returns.  A negative or zero nonce writes no digits
(the Go loop `for nonce > 0` does not run), which `Int.toNat` reproduces. -/
def bruteForceRun (digest : List Nat → List Nat) (rmatch : List Nat → Bool)
    (alpha name : List Nat) (wfuel : Nat) (doneAt : Nat → Bool) :
    List Nat → Nat → Nat → List Int → Option (List Nat)
  | _, _, _, [] => none
  | obj, idx, k, t :: ts =>
    if doneAt k then none
    else
      match writeNonce alpha name wfuel obj idx t.toNat with
      | none => none
      | some (obj2, idx2) =>
        if rmatch (sumThenHex digest obj2) then some obj2
        else bruteForceRun digest rmatch alpha name wfuel doneAt obj2 idx2 (k + 1) ts

/-- Go int64 increment with two's-complement wraparound (`t.nonce++`). -/
def incWrap (n : Int) : Int :=
  if n = 9223372036854775807 then -9223372036854775808 else n + 1

/-- State of explore's counter after `k` increments from zero. -/
def exploreState (k : Nat) : Int := incWrap^[k] 0

/-- The k-th value (0-based) sent on the candidate channel by explore:
the loop increments first, then sends. -/
def exploreEmit (k : Nat) : Int := exploreState (k + 1)

/-- Tokens of the regexp fragment needed here: a literal byte, or the
start-of-text assertion '^'. -/
inductive RTok where
  | caret
  | lit (c : Nat)
  deriving Repr, DecidableEq

/-- Does the token list match starting exactly at position `i` of `s`? -/
def matchAtIdx (s : List Nat) : List RTok → Nat → Bool
  | [], _ => true
  | .caret :: ts, i => (i == 0) && matchAtIdx s ts i
  | .lit c :: ts, i => (s.get? i == some c) && matchAtIdx s ts (i + 1)

/-- Go regexp.Regexp.Match semantics for this fragment: reports whether the
byte slice contains a match of the pattern anywhere (the Go matcher is not
anchored unless the pattern itself is).  The engine is the Go standard
library, outside this repository; this models its documented behavior. -/
def goReMatch (p : List RTok) (s : List Nat) : Bool :=
  (List.range (s.length + 1)).any (fun i => matchAtIdx s p i)

/-- Modelled from the spec: "an anchored text-matching rule ... applied to
the lowercase hexadecimal rendering" — satisfaction of the pattern anchored
at the start of the string. -/
def anchoredSat (p : List RTok) (s : List Nat) : Bool :=
  matchAtIdx s p 0

/-- Modelled from the spec: "parsing the field's digits back with the same
alphabet" — positional base-r value of a digit string, where each digit
character is decoded by its index in the alphabet. -/
def specParse (alpha ds : List Nat) : Nat :=
  ds.foldl (fun a c => a * alpha.length + alpha.indexOf c) 0

/-- Base-r digit characters of `n`, least significant first, as written by
the render loop (`alpha[nonce % r]`, `nonce /= r`); fuel-indexed. -/
def digitsRevCore (alpha : List Nat) : Nat → Nat → List Nat
  | 0, _ => []
  | f + 1, n =>
    if n = 0 then [] else
      alpha.getD (n % alpha.length) 0 :: digitsRevCore alpha f (n / alpha.length)

/-- Base-r digit characters of `n`, least significant first. -/
def digitsRev (alpha : List Nat) (n : Nat) : List Nat := digitsRevCore alpha n n

/-- Base-r digit characters of `n`, most significant first. -/
def msfDigits (alpha : List Nat) (n : Nat) : List Nat := (digitsRev alpha n).reverse

/-- The digits of the named field's value in a buffer: the bytes after
"\n<name> " up to the next newline. -/
def fieldValue (name obj : List Nat) : List Nat :=
  (obj.drop (bytesIndex obj (nonceHdr name) + ((nonceHdr name).length : Int)).toNat).takeWhile
    (fun b => !(b == 10))

/-- A buffer in canonical header form: "commit <len>\0<content>". -/
def wrapObj (c : List Nat) : List Nat :=
  commitLit ++ decDigits c.length ++ [0] ++ c

/-- Content carrying the named field with value bytes `val`:
pre ++ "\n<name> " ++ val ++ "\n" ++ post. -/
def fieldContent (name pre val post : List Nat) : List Nat :=
  pre ++ nonceHdr name ++ val ++ 10 :: post

/-- A canonical buffer whose content carries the named field. -/
def fieldObj (name pre val post : List Nat) : List Nat :=
  wrapObj (fieldContent name pre val post)

/-- The invariant of section 3 of the spec: the declared byte-length equals
the actual content length, i.e. re-deriving the header changes nothing. -/
def headerOk (obj : List Nat) : Prop :=
  fixHeader obj = obj

/-- Length of the "commit <len>\0" header of a buffer with content `c`. -/
def hl (c : List Nat) : Nat := 8 + (decDigits c.length).length

/-- Absolute index of the space separating the field name from its value in
`fieldObj name pre val post`. -/
def spacePos (name pre val post : List Nat) : Nat :=
  hl (fieldContent name pre val post) + pre.length + 1 + name.length

/-- The "commit <len>\0" bytes as one list. -/
def hdrBytes (L : Nat) : List Nat := commitLit ++ decDigits L ++ [0]

section Helpers

lemma cons_isPrefixOf_iff {c : Nat} {p s : List Nat} :
    (c :: p).isPrefixOf s = true ↔ ∃ t, s = c :: t ∧ p.isPrefixOf t = true := by
  cases s with
  | nil => simp [List.isPrefixOf]
  | cons a t =>
    simp only [List.isPrefixOf, Bool.and_eq_true, beq_iff_eq, List.cons.injEq]
    constructor
    · rintro ⟨rfl, h⟩; exact ⟨t, ⟨rfl, rfl⟩, h⟩
    · rintro ⟨t', ⟨rfl, rfl⟩, h⟩; exact ⟨rfl, h⟩

lemma isPrefixOf_trunc {zs as bs : List Nat} (h : zs.length ≤ as.length) :
    zs.isPrefixOf (as ++ bs) = zs.isPrefixOf as := by
  rw [Bool.eq_iff_iff, List.isPrefixOf_iff_prefix, List.isPrefixOf_iff_prefix,
    List.prefix_iff_eq_take, List.prefix_iff_eq_take, List.take_append_eq_append_take,
    Nat.sub_eq_zero_of_le h, List.take_zero, List.append_nil]

lemma firstMatch_none {pat s : List Nat} (h : firstMatch pat s = none) :
    ∀ j, pat.isPrefixOf (s.drop j) = false := by
  induction s with
  | nil =>
    intro j
    simp only [firstMatch] at h
    rw [List.drop_nil]
    by_cases hp : pat.isPrefixOf ([] : List Nat) = true
    · simp [hp] at h
    · exact Bool.eq_false_iff.mpr hp
  | cons a t ih =>
    intro j
    simp only [firstMatch] at h
    by_cases hp : pat.isPrefixOf (a :: t) = true
    · simp [hp] at h
    · cases j with
      | zero => rw [List.drop_zero]; exact Bool.eq_false_iff.mpr hp
      | succ j =>
        rw [if_neg hp] at h
        cases hft : firstMatch pat t with
        | none => exact ih hft j
        | some v => rw [hft] at h; simp at h

lemma firstMatch_eq_some {pat : List Nat} :
    ∀ (m : Nat) (s : List Nat), pat.isPrefixOf (s.drop m) = true →
      (∀ j < m, pat.isPrefixOf (s.drop j) = false) →
      firstMatch pat s = some m := by
  intro m
  induction m with
  | zero =>
    intro s h1 _
    rw [List.drop_zero] at h1
    cases s <;> simp [firstMatch, h1]
  | succ m ih =>
    intro s h1 h2
    have h0 : pat.isPrefixOf s = false := by
      have := h2 0 (Nat.succ_pos m); simpa using this
    cases s with
    | nil =>
      rw [List.drop_nil] at h1
      rw [h1] at h0
      cases h0
    | cons a t =>
      simp only [firstMatch, h0, Bool.false_eq_true, if_false]
      have ht : firstMatch pat t = some m := by
        apply ih
        · simpa using h1
        · intro j hj
          have := h2 (j + 1) (Nat.succ_lt_succ hj)
          simpa using this
      rw [ht]
      rfl

lemma noMatch_inside {b : Nat} {p xs ys : List Nat} {j : Nat} (hj : j < xs.length)
    (hb : ∀ x ∈ xs, x ≠ b) : (b :: p).isPrefixOf ((xs ++ ys).drop j) = false := by
  have hdrop : (xs ++ ys).drop j = xs.drop j ++ ys := by
    rw [List.drop_append_eq_append_drop, Nat.sub_eq_zero_of_le (Nat.le_of_lt hj),
      List.drop_zero]
  rw [hdrop]
  by_contra hc
  have hc' : (b :: p).isPrefixOf (xs.drop j ++ ys) = true := by
    revert hc; cases h : (b :: p).isPrefixOf (xs.drop j ++ ys) <;> simp
  have hx : xs.drop j = xs[j] :: xs.drop (j + 1) := List.drop_eq_getElem_cons hj
  rw [hx] at hc'
  obtain ⟨t, ht, -⟩ := cons_isPrefixOf_iff.mp hc'
  simp only [List.cons_append, List.cons.injEq] at ht
  exact hb _ (List.getElem_mem hj) ht.1

lemma firstMatch_zone {b : Nat} {p hdr pre rest : List Nat}
    (hhdr : ∀ x ∈ hdr, x ≠ b)
    (hpre : ∀ q < pre.length, (b :: p).isPrefixOf ((pre ++ (b :: p)).drop q) = false) :
    firstMatch (b :: p) (hdr ++ (pre ++ ((b :: p) ++ rest))) = some (hdr.length + pre.length) := by
  apply firstMatch_eq_some
  · have : (hdr ++ (pre ++ ((b :: p) ++ rest))).drop (hdr.length + pre.length)
        = (b :: p) ++ rest := by
      rw [show hdr ++ (pre ++ ((b :: p) ++ rest)) = (hdr ++ pre) ++ ((b :: p) ++ rest) by
        simp [List.append_assoc], show hdr.length + pre.length = (hdr ++ pre).length + 0 by
        simp, List.drop_append, List.drop_zero]
    rw [this, List.isPrefixOf_iff_prefix]
    exact List.prefix_append _ _
  · intro j hj
    rcases Nat.lt_or_ge j hdr.length with hlt | hge
    · exact noMatch_inside hlt hhdr
    · obtain ⟨q, rfl⟩ := Nat.exists_eq_add_of_le hge
      have hq : q < pre.length := by omega
      have e1 : (hdr ++ (pre ++ ((b :: p) ++ rest))).drop (hdr.length + q)
          = pre.drop q ++ ((b :: p) ++ rest) := by
        rw [show hdr ++ (pre ++ ((b :: p) ++ rest)) = (hdr ++ pre) ++ ((b :: p) ++ rest) by
          simp [List.append_assoc]]
        rw [List.drop_append_eq_append_drop]
        have hlen : hdr.length + q - (hdr ++ pre).length = 0 := by
          rw [List.length_append]; omega
        rw [hlen, List.drop_zero, List.drop_append_eq_append_drop,
          List.drop_eq_nil_of_le (Nat.le_add_right hdr.length q),
          Nat.add_sub_cancel_left, List.nil_append]
      have e2 : (pre ++ (b :: p)).drop q = pre.drop q ++ (b :: p) := by
        rw [List.drop_append_eq_append_drop, Nat.sub_eq_zero_of_le (Nat.le_of_lt hq),
          List.drop_zero]
      rw [e1, ← List.append_assoc, ← e2, isPrefixOf_trunc
        (by rw [List.length_drop, List.length_append, List.length_cons]; omega)]
      exact hpre q hq

end Helpers

section HeaderFacts

lemma decDigitsCore_mem : ∀ (f n b : Nat), b ∈ decDigitsCore f n → 48 ≤ b ∧ b ≤ 57 := by
  intro f
  induction f with
  | zero => intro n b hb; simp [decDigitsCore] at hb
  | succ f ih =>
    intro n b hb
    simp only [decDigitsCore] at hb
    by_cases hn : n = 0
    · simp [hn] at hb
    · rw [if_neg hn] at hb
      rcases List.mem_append.mp hb with h | h
      · exact ih _ _ h
      · have hb' : b = 48 + n % 10 := by simpa using h
        have := Nat.mod_lt n (show 0 < 10 by norm_num)
        omega

lemma decDigits_mem {n b : Nat} (hb : b ∈ decDigits n) : 48 ≤ b ∧ b ≤ 57 := by
  rw [decDigits] at hb
  by_cases hn : n = 0
  · rw [if_pos hn] at hb; simp at hb; omega
  · rw [if_neg hn] at hb; exact decDigitsCore_mem _ _ _ hb

lemma hdrBytes_ne10 {L : Nat} : ∀ x ∈ hdrBytes L, x ≠ 10 := by
  intro x hx
  rw [hdrBytes] at hx
  rcases List.mem_append.mp hx with h | h
  · rcases List.mem_append.mp h with h2 | h2
    · rw [commitLit] at h2; fin_cases h2 <;> norm_num
    · have := decDigits_mem h2; omega
  · simp at h; omega

lemma hdrBytes_length {L : Nat} : (hdrBytes L).length = 8 + (decDigits L).length := by
  simp [hdrBytes, commitLit]; omega

lemma fixHeader_shape {ds c : List Nat} (hds : ∀ x ∈ ds, 48 ≤ x ∧ x ≤ 57) :
    fixHeader (commitLit ++ ds ++ [0] ++ c) = wrapObj c := by
  have hidx : bytesIndex (commitLit ++ ds ++ [0] ++ c) [0]
      = (((commitLit ++ ds).length : Nat) : Int) := by
    rw [bytesIndex]
    have hshape : commitLit ++ ds ++ [0] ++ c
        = (commitLit ++ ds) ++ (([] : List Nat) ++ ((0 :: ([] : List Nat)) ++ c)) := by
      simp [List.append_assoc]
    rw [hshape, firstMatch_zone ?hh ?hp]
    · simp
    case hh =>
      intro x hx
      rcases List.mem_append.mp hx with h | h
      · rw [commitLit] at h; fin_cases h <;> norm_num
      · have := hds _ h; omega
    case hp => intro q hq; simp at hq
  have htn : (bytesIndex (commitLit ++ ds ++ [0] ++ c) [0] + 1).toNat
      = (commitLit ++ ds).length + 1 := by
    rw [hidx]; omega
  have hdrop : (commitLit ++ ds ++ [0] ++ c).drop ((commitLit ++ ds).length + 1) = c := by
    have hshape : commitLit ++ ds ++ [0] ++ c = (commitLit ++ ds) ++ (0 :: c) := by
      simp [List.append_assoc]
    rw [hshape, List.drop_append]
    rfl
  rw [fixHeader, htn, hdrop]
  rfl

lemma fixHeader_wrapObj (c : List Nat) : fixHeader (wrapObj c) = wrapObj c :=
  @fixHeader_shape (decDigits c.length) c (fun _ hx => decDigits_mem hx)

lemma fixHeader_headerOk (obj : List Nat) : headerOk (fixHeader obj) := by
  rw [headerOk, show fixHeader obj = wrapObj (obj.drop (bytesIndex obj [0] + 1).toNat) from rfl,
    fixHeader_wrapObj]

end HeaderFacts

section FieldFacts

variable {name pre val post : List Nat}

lemma fieldObj_assoc :
    fieldObj name pre val post
      = hdrBytes (fieldContent name pre val post).length
        ++ (pre ++ ((10 :: (name ++ [32])) ++ (val ++ 10 :: post))) := by
  simp [fieldObj, wrapObj, fieldContent, hdrBytes, nonceHdr, List.append_assoc]

lemma spacePos_eq :
    spacePos name pre val post
      = hl (fieldContent name pre val post) + pre.length + 1 + name.length := rfl

lemma fieldContent_length :
    (fieldContent name pre val post).length
      = pre.length + name.length + val.length + post.length + 3 := by
  simp [fieldContent, nonceHdr]; omega

lemma bytesIndex_field (Hname : ∀ b ∈ name, b ≠ 10)
    (Hpre : ∀ q < pre.length,
      (nonceHdr name).isPrefixOf ((pre ++ nonceHdr name).drop q) = false) :
    bytesIndex (fieldObj name pre val post) (nonceHdr name)
      = ((hl (fieldContent name pre val post) + pre.length : Nat) : Int) := by
  rw [bytesIndex, fieldObj_assoc, nonceHdr]
  rw [firstMatch_zone ?hh ?hp]
  · rw [hdrBytes_length]
    rfl
  case hh => exact fun x hx => hdrBytes_ne10 x hx
  case hp =>
    intro q hq
    have := Hpre q hq
    rw [nonceHdr] at this
    exact this

lemma bytesContains_field (Hname : ∀ b ∈ name, b ≠ 10)
    (Hpre : ∀ q < pre.length,
      (nonceHdr name).isPrefixOf ((pre ++ nonceHdr name).drop q) = false) :
    bytesContains (fieldObj name pre val post) (nonceHdr name) = true := by
  have h := @bytesIndex_field name pre val post Hname Hpre
  rw [bytesIndex] at h
  rw [bytesContains]
  cases hm : firstMatch (nonceHdr name) (fieldObj name pre val post) with
  | none =>
    exfalso
    rw [hm] at h
    have h2 : (-1 : Int)
        = ((hl (fieldContent name pre val post) + pre.length : Nat) : Int) := h
    omega
  | some v => rfl

lemma growNonce_field (Hname : ∀ b ∈ name, b ≠ 10)
    (Hpre : ∀ q < pre.length,
      (nonceHdr name).isPrefixOf ((pre ++ nonceHdr name).drop q) = false) :
    growNonce name (fieldObj name pre val post) = fieldObj name pre (48 :: val) post := by
  rw [growNonce, bytesIndex_field Hname Hpre]
  have hi : ((((hl (fieldContent name pre val post) + pre.length : Nat) : Int))
      + ((nonceHdr name).length : Int)).toNat
      = hl (fieldContent name pre val post) + pre.length + (nonceHdr name).length := by
    omega
  rw [hi]
  have hsplit : fieldObj name pre val post
      = (hdrBytes (fieldContent name pre val post).length ++ pre ++ nonceHdr name)
        ++ (val ++ 10 :: post) := by
    simp [fieldObj, wrapObj, fieldContent, hdrBytes, List.append_assoc]
  have hlen : (hdrBytes (fieldContent name pre val post).length ++ pre
      ++ nonceHdr name).length
      = hl (fieldContent name pre val post) + pre.length + (nonceHdr name).length := by
    simp [hdrBytes_length, hl]
    omega
  rw [hsplit, List.take_left' hlen, List.drop_left' hlen]
  have hshape : (hdrBytes (fieldContent name pre val post).length ++ pre ++ nonceHdr name)
      ++ 48 :: (val ++ 10 :: post)
      = commitLit ++ decDigits (fieldContent name pre val post).length ++ [0]
        ++ fieldContent name pre (48 :: val) post := by
    simp [hdrBytes, fieldContent, nonceHdr, List.append_assoc]
  rw [hshape]
  have hfix := @fixHeader_shape (decDigits (fieldContent name pre val post).length)
    (fieldContent name pre (48 :: val) post) (fun _ hx => decDigits_mem hx)
  rw [hfix]
  rfl

lemma findIdx_u10 {u w : List Nat} (hu : ∀ x ∈ u, x ≠ 10) :
    List.findIdx (fun b => b == 10) (u ++ 10 :: w) = u.length := by
  induction u with
  | nil => simp [List.findIdx_cons]
  | cons a t ih =>
    rw [List.cons_append, List.findIdx_cons]
    have ha : (a == 10) = false :=
      beq_eq_false_iff_ne.mpr (hu a (List.mem_cons_self a t))
    rw [ha]
    simp only [cond_false]
    rw [ih (fun x hx => hu x (List.mem_cons_of_mem a hx))]
    simp

lemma addOrFindNonce_found (Hname : ∀ b ∈ name, b ≠ 10)
    (Hpre : ∀ q < pre.length,
      (nonceHdr name).isPrefixOf ((pre ++ nonceHdr name).drop q) = false)
    (Hval : ∀ b ∈ val, b ≠ 10) :
    addOrFindNonce name (fieldObj name pre val post)
      = (fieldObj name pre val post, spacePos name pre val post + val.length) := by
  rw [addOrFindNonce]
  simp only [bytesContains_field Hname Hpre, if_true]
  rw [bytesIndex_field Hname Hpre]
  have hj : (((hl (fieldContent name pre val post) + pre.length : Nat) : Int)).toNat
      = hl (fieldContent name pre val post) + pre.length := by omega
  rw [hj]
  have hsplit : fieldObj name pre val post
      = (hdrBytes (fieldContent name pre val post).length ++ pre ++ [10])
        ++ ((name ++ 32 :: val) ++ 10 :: post) := by
    simp [fieldObj, wrapObj, fieldContent, hdrBytes, nonceHdr, List.append_assoc]
  have hlen : (hdrBytes (fieldContent name pre val post).length ++ pre ++ [10]).length
      = hl (fieldContent name pre val post) + pre.length + 1 := by
    simp [hdrBytes_length, hl]
    omega
  have hdrop : (fieldObj name pre val post).drop
      (hl (fieldContent name pre val post) + pre.length + 1)
      = (name ++ 32 :: val) ++ 10 :: post := by
    rw [hsplit, List.drop_left' hlen]
  rw [hdrop, findIdx_u10 ?hu]
  case hu =>
    intro x hx
    rcases List.mem_append.mp hx with h | h
    · exact Hname x h
    · rcases List.mem_cons.mp h with h | h
      · omega
      · exact Hval x h
  have : hl (fieldContent name pre val post) + pre.length + (name ++ 32 :: val).length
      = spacePos name pre val post + val.length := by
    rw [spacePos_eq]
    simp
    omega
  rw [this]

lemma takeWhile_u10 {u w : List Nat} (hu : ∀ x ∈ u, x ≠ 10) :
    (u ++ 10 :: w).takeWhile (fun b => !(b == 10)) = u := by
  induction u with
  | nil => simp [List.takeWhile_cons]
  | cons a t ih =>
    rw [List.cons_append, List.takeWhile_cons]
    have ha : (a == 10) = false :=
      beq_eq_false_iff_ne.mpr (hu a (List.mem_cons_self a t))
    rw [ha]
    simp only [Bool.not_false, if_true]
    rw [ih (fun x hx => hu x (List.mem_cons_of_mem a hx))]

lemma fieldValue_field (Hname : ∀ b ∈ name, b ≠ 10)
    (Hpre : ∀ q < pre.length,
      (nonceHdr name).isPrefixOf ((pre ++ nonceHdr name).drop q) = false)
    (Hval : ∀ b ∈ val, b ≠ 10) :
    fieldValue name (fieldObj name pre val post) = val := by
  rw [fieldValue, bytesIndex_field Hname Hpre]
  have hi : ((((hl (fieldContent name pre val post) + pre.length : Nat) : Int))
      + ((nonceHdr name).length : Int)).toNat
      = hl (fieldContent name pre val post) + pre.length + (nonceHdr name).length := by
    omega
  rw [hi]
  have hsplit : fieldObj name pre val post
      = (hdrBytes (fieldContent name pre val post).length ++ pre ++ nonceHdr name)
        ++ (val ++ 10 :: post) := by
    simp [fieldObj, wrapObj, fieldContent, hdrBytes, List.append_assoc]
  have hlen : (hdrBytes (fieldContent name pre val post).length ++ pre
      ++ nonceHdr name).length
      = hl (fieldContent name pre val post) + pre.length + (nonceHdr name).length := by
    simp [hdrBytes_length, hl]
    omega
  rw [hsplit, List.drop_left' hlen]
  exact takeWhile_u10 Hval

end FieldFacts

section CellFacts

variable {name pre val post : List Nat}

lemma val_split :
    fieldObj name pre val post
      = (hdrBytes (fieldContent name pre val post).length ++ pre ++ (10 :: name) ++ [32])
        ++ (val ++ 10 :: post) := by
  simp [fieldObj, wrapObj, fieldContent, hdrBytes, nonceHdr, List.append_assoc]

lemma val_split_length :
    (hdrBytes (fieldContent name pre val post).length ++ pre ++ (10 :: name) ++ [32]).length
      = spacePos name pre val post + 1 := by
  rw [spacePos_eq]
  simp [hdrBytes_length, hl]
  omega

lemma getD_field_space (d : Nat) :
    (fieldObj name pre val post).getD (spacePos name pre val post) d = 32 := by
  have h := @val_split_length name pre val post
  rw [val_split]
  rcases Nat.lt_or_ge (spacePos name pre val post)
    (hdrBytes (fieldContent name pre val post).length ++ pre ++ (10 :: name) ++ [32]).length
    with hlt | hge
  · rw [List.getD_append _ _ _ _ hlt]
    have h32 : hdrBytes (fieldContent name pre val post).length ++ pre ++ (10 :: name) ++ [32]
        = (hdrBytes (fieldContent name pre val post).length ++ pre ++ (10 :: name)) ++ [32] := by
      simp [List.append_assoc]
    have hlen2 : (hdrBytes (fieldContent name pre val post).length ++ pre
        ++ (10 :: name)).length = spacePos name pre val post := by
      rw [spacePos_eq]; simp [hdrBytes_length, hl]; omega
    rw [h32, List.getD_append_right _ _ _ _ hlen2.le, hlen2, Nat.sub_self]
    rfl
  · omega

lemma getD_field_val {k : Nat} (d : Nat) (hk : k < val.length) :
    (fieldObj name pre val post).getD (spacePos name pre val post + 1 + k) d
      = val.getD k d := by
  have h := @val_split_length name pre val post
  rw [val_split, List.getD_append_right _ _ _ _ (by omega), h]
  have : spacePos name pre val post + 1 + k - (spacePos name pre val post + 1) = k := by omega
  rw [this, List.getD_append _ _ _ _ hk]

lemma getD_field_after (d : Nat) :
    (fieldObj name pre val post).getD (spacePos name pre val post + 1 + val.length) d
      = 10 := by
  have h := @val_split_length name pre val post
  rw [val_split, List.getD_append_right _ _ _ _ (by omega), h]
  have : spacePos name pre val post + 1 + val.length - (spacePos name pre val post + 1)
      = val.length := by omega
  rw [this, List.getD_append_right _ _ _ _ (le_refl _), Nat.sub_self]
  rfl

lemma fieldContent_set_length {k b : Nat} :
    (fieldContent name pre (val.set k b) post).length
      = (fieldContent name pre val post).length := by
  simp [fieldContent_length]

lemma spacePos_set {k b : Nat} :
    spacePos name pre (val.set k b) post = spacePos name pre val post := by
  rw [spacePos_eq, spacePos_eq, hl, hl, fieldContent_set_length]

lemma set_field_val {k b : Nat} (hk : k < val.length) :
    (fieldObj name pre val post).set (spacePos name pre val post + 1 + k) b
      = fieldObj name pre (val.set k b) post := by
  have h := @val_split_length name pre val post
  rw [val_split, List.set_append, if_neg (by omega), h]
  have hsub : spacePos name pre val post + 1 + k - (spacePos name pre val post + 1) = k := by
    omega
  rw [hsub, List.set_append, if_pos hk]
  have hRHS : fieldObj name pre (val.set k b) post
      = (hdrBytes (fieldContent name pre val post).length ++ pre ++ (10 :: name) ++ [32])
        ++ (val.set k b ++ 10 :: post) := by
    rw [show fieldObj name pre (val.set k b) post
        = (hdrBytes (fieldContent name pre (val.set k b) post).length ++ pre
          ++ (10 :: name) ++ [32]) ++ (val.set k b ++ 10 :: post) from val_split,
      fieldContent_set_length]
  rw [hRHS]

end CellFacts

section DigitsRevFacts

variable {alpha : List Nat}

lemma digitsRevCore_zero : ∀ f, digitsRevCore alpha f 0 = [] := by
  intro f; cases f <;> simp [digitsRevCore]

lemma digitsRevCore_fuel (h2 : 2 ≤ alpha.length) :
    ∀ f g n, n ≤ f → n ≤ g → digitsRevCore alpha f n = digitsRevCore alpha g n := by
  intro f
  induction f with
  | zero =>
    intro g n hf _
    have : n = 0 := Nat.le_zero.mp hf
    subst this
    rw [digitsRevCore_zero, digitsRevCore_zero]
  | succ f ih =>
    intro g n hf hg
    by_cases hn : n = 0
    · subst hn; rw [digitsRevCore_zero, digitsRevCore_zero]
    · cases g with
      | zero => omega
      | succ g =>
        simp only [digitsRevCore, if_neg hn]
        congr 1
        have hlt : n / alpha.length < n := Nat.div_lt_self (by omega) (by omega)
        exact ih g (n / alpha.length) (by omega) (by omega)

lemma digitsRev_succ (h2 : 2 ≤ alpha.length) {n : Nat} (hn : 1 ≤ n) :
    digitsRev alpha n
      = alpha.getD (n % alpha.length) 0 :: digitsRev alpha (n / alpha.length) := by
  obtain ⟨m, rfl⟩ : ∃ m, n = m + 1 := ⟨n - 1, by omega⟩
  rw [digitsRev, digitsRevCore, if_neg (by omega)]
  congr 1
  have hlt : (m + 1) / alpha.length < m + 1 := Nat.div_lt_self (by omega) (by omega)
  exact digitsRevCore_fuel h2 m ((m + 1) / alpha.length) ((m + 1) / alpha.length)
    (by omega) (le_refl _)

lemma digitsRev_zero : digitsRev alpha 0 = [] := rfl

lemma digitsRev_mem (h2 : 2 ≤ alpha.length) :
    ∀ n, ∀ x ∈ digitsRev alpha n, x ∈ alpha := by
  intro n
  induction n using Nat.strong_induction_on with
  | _ n ih =>
    intro x hx
    by_cases hn : n = 0
    · subst hn; rw [digitsRev_zero] at hx; cases hx
    · rw [digitsRev_succ h2 (by omega)] at hx
      rcases List.mem_cons.mp hx with h | h
      · subst h
        have hk : n % alpha.length < alpha.length := Nat.mod_lt n (by omega)
        rw [List.getD_eq_getElem _ _ hk]
        exact List.getElem_mem hk
      · exact ih (n / alpha.length) (Nat.div_lt_self (by omega) (by omega)) x h

lemma digitsRev_pos (h2 : 2 ≤ alpha.length) {n : Nat} (hn : 1 ≤ n) :
    1 ≤ (digitsRev alpha n).length := by
  rw [digitsRev_succ h2 hn]
  simp

end DigitsRevFacts

section RenderFacts

variable {alpha name pre post : List Nat}

lemma renderLoop_zero {f : Nat} {obj : List Nat} {i : Nat} :
    renderLoop alpha f obj i 0 = .ok obj := by
  cases f <;> rfl

lemma renderLoop_ok (h2 : 2 ≤ alpha.length) (hal : ∀ b ∈ alpha, b ≠ 32) :
    ∀ n, ∀ (f : Nat) (val : List Nat) (rel : Nat),
      1 ≤ n → n ≤ f →
      (∀ b ∈ val, b ≠ 32) →
      rel ≤ val.length →
      (digitsRev alpha n).length ≤ rel →
      renderLoop alpha f (fieldObj name pre val post) (spacePos name pre val post + rel) n
        = .ok (fieldObj name pre
            (val.take (rel - (digitsRev alpha n).length)
              ++ msfDigits alpha n ++ val.drop rel) post) := by
  intro n
  induction n using Nat.strong_induction_on with
  | _ n ih =>
    intro f val rel hn hf hval hrel hd
    have hd1 : 1 ≤ (digitsRev alpha n).length := digitsRev_pos h2 hn
    obtain ⟨f', rfl⟩ : ∃ f', f = f' + 1 := ⟨f - 1, by omega⟩
    obtain ⟨n', rfl⟩ : ∃ n', n = n' + 1 := ⟨n - 1, by omega⟩
    set c0 := alpha.getD ((n' + 1) % alpha.length) 0 with hc0
    set n2 := (n' + 1) / alpha.length with hn2
    have hrel1 : 1 ≤ rel := le_trans hd1 hd
    have hkk : rel - 1 < val.length := by omega
    have hbyte : (fieldObj name pre val post).getD (spacePos name pre val post + rel) 0
        = val.getD (rel - 1) 0 := by
      have : spacePos name pre val post + rel = spacePos name pre val post + 1 + (rel - 1) := by
        omega
      rw [this, getD_field_val 0 hkk]
    have hne32 : val.getD (rel - 1) 0 ≠ 32 := by
      rw [List.getD_eq_getElem _ _ hkk]
      exact hval _ (List.getElem_mem hkk)
    have hset : (fieldObj name pre val post).set (spacePos name pre val post + rel) c0
        = fieldObj name pre (val.set (rel - 1) c0) post := by
      have : spacePos name pre val post + rel = spacePos name pre val post + 1 + (rel - 1) := by
        omega
      rw [this, set_field_val hkk]
    simp only [renderLoop]
    rw [if_neg (by rw [hbyte]; exact hne32)]
    rw [← hc0, hset, ← hn2]
    have hidx : spacePos name pre val post + rel - 1
        = spacePos name pre (val.set (rel - 1) c0) post + (rel - 1) := by
      rw [spacePos_set]; omega
    rw [hidx]
    have hds : digitsRev alpha (n' + 1) = c0 :: digitsRev alpha n2 :=
      digitsRev_succ h2 (by omega)
    have hvs : val.set (rel - 1) c0
        = val.take (rel - 1) ++ c0 :: val.drop rel := by
      have h := List.set_eq_take_cons_drop c0 hkk
      rw [show rel - 1 + 1 = rel by omega] at h
      exact h
    by_cases h0 : n2 = 0
    · rw [h0, renderLoop_zero]
      congr 1
      rw [hvs]
      rw [hds, h0, digitsRev_zero]
      simp only [List.length_cons, List.length_nil, Nat.zero_add]
      rw [msfDigits, hds, h0, digitsRev_zero]
      simp [List.append_assoc]
    · have hn2p : 1 ≤ n2 := Nat.one_le_iff_ne_zero.mpr h0
      have hlt : n2 < n' + 1 := Nat.div_lt_self (by omega) (by omega)
      have hd2 : (digitsRev alpha n2).length ≤ rel - 1 := by
        rw [hds] at hd
        simp only [List.length_cons] at hd
        omega
      have hval2 : ∀ b ∈ val.set (rel - 1) c0, b ≠ 32 := by
        intro b hb
        rw [hvs] at hb
        rcases List.mem_append.mp hb with h | h
        · exact hval b (List.mem_of_mem_take h)
        · rcases List.mem_cons.mp h with h | h
          · subst h
            apply hal
            have hk : (n' + 1) % alpha.length < alpha.length := Nat.mod_lt _ (by omega)
            rw [hc0, List.getD_eq_getElem _ _ hk]
            exact List.getElem_mem hk
          · exact hval b (List.mem_of_mem_drop h)
      have hrel2 : rel - 1 ≤ (val.set (rel - 1) c0).length := by
        rw [List.length_set]; omega
      rw [ih n2 hlt f' (val.set (rel - 1) c0) (rel - 1) hn2p (by omega) hval2 hrel2 hd2]
      congr 1
      have hA : (val.take (rel - 1)).length = rel - 1 := by
        rw [List.length_take]; omega
      have htk : (val.set (rel - 1) c0).take (rel - 1 - (digitsRev alpha n2).length)
          = val.take (rel - (digitsRev alpha (n' + 1)).length) := by
        have hm : rel - 1 - (digitsRev alpha n2).length ≤ rel - 1 := by omega
        rw [hvs, List.take_append_eq_append_take, hA,
          Nat.sub_eq_zero_of_le hm, List.take_zero, List.append_nil, List.take_take]
        have hmin : min (rel - 1 - (digitsRev alpha n2).length) (rel - 1)
            = rel - (digitsRev alpha (n' + 1)).length := by
          rw [hds]
          simp only [List.length_cons]
          omega
        rw [hmin]
      have hdr : (val.set (rel - 1) c0).drop (rel - 1) = c0 :: val.drop rel := by
        rw [hvs, List.drop_append_eq_append_drop, hA, Nat.sub_self, List.drop_zero,
          List.drop_eq_nil_of_le hA.le, List.nil_append]
      rw [htk, hdr]
      have hmsf : msfDigits alpha (n' + 1) = msfDigits alpha n2 ++ [c0] := by
        rw [msfDigits, msfDigits, hds, List.reverse_cons]
      rw [hmsf]
      simp [List.append_assoc]

lemma renderLoop_grow (h2 : 2 ≤ alpha.length) (hal : ∀ b ∈ alpha, b ≠ 32) :
    ∀ n, ∀ (f : Nat) (val : List Nat) (rel : Nat),
      1 ≤ n → n ≤ f →
      (∀ b ∈ val, b ≠ 32) →
      rel ≤ val.length →
      rel < (digitsRev alpha n).length →
      renderLoop alpha f (fieldObj name pre val post) (spacePos name pre val post + rel) n
        = .needGrow (fieldObj name pre
            (((digitsRev alpha n).take rel).reverse ++ val.drop rel) post) := by
  intro n
  induction n using Nat.strong_induction_on with
  | _ n ih =>
    intro f val rel hn hf hval hrel hd
    obtain ⟨f', rfl⟩ : ∃ f', f = f' + 1 := ⟨f - 1, by omega⟩
    obtain ⟨n', rfl⟩ : ∃ n', n = n' + 1 := ⟨n - 1, by omega⟩
    set c0 := alpha.getD ((n' + 1) % alpha.length) 0 with hc0
    set n2 := (n' + 1) / alpha.length with hn2
    have hds : digitsRev alpha (n' + 1) = c0 :: digitsRev alpha n2 :=
      digitsRev_succ h2 (by omega)
    cases rel with
    | zero =>
      simp only [renderLoop]
      rw [if_pos (by rw [Nat.add_zero, getD_field_space])]
      simp
    | succ r =>
      have hkk : r < val.length := by omega
      have hbyte : (fieldObj name pre val post).getD
          (spacePos name pre val post + (r + 1)) 0 = val.getD r 0 := by
        have : spacePos name pre val post + (r + 1)
            = spacePos name pre val post + 1 + r := by omega
        rw [this, getD_field_val 0 hkk]
      have hne32 : val.getD r 0 ≠ 32 := by
        rw [List.getD_eq_getElem _ _ hkk]
        exact hval _ (List.getElem_mem hkk)
      have hset : (fieldObj name pre val post).set
          (spacePos name pre val post + (r + 1)) c0
          = fieldObj name pre (val.set r c0) post := by
        have : spacePos name pre val post + (r + 1)
            = spacePos name pre val post + 1 + r := by omega
        rw [this, set_field_val hkk]
      simp only [renderLoop]
      rw [if_neg (by rw [hbyte]; exact hne32)]
      rw [← hc0, hset, ← hn2]
      have hvs : val.set r c0 = val.take r ++ c0 :: val.drop (r + 1) :=
        List.set_eq_take_cons_drop c0 hkk
      have hd2 : r < (digitsRev alpha n2).length := by
        rw [hds] at hd
        simp only [List.length_cons] at hd
        omega
      have hn2p : 1 ≤ n2 := by
        by_contra h0
        rw [Nat.eq_zero_of_not_pos h0, digitsRev_zero] at hd2
        simp at hd2
      have hlt : n2 < n' + 1 := Nat.div_lt_self (by omega) (by omega)
      have hval2 : ∀ b ∈ val.set r c0, b ≠ 32 := by
        intro b hb
        rw [hvs] at hb
        rcases List.mem_append.mp hb with h | h
        · exact hval b (List.mem_of_mem_take h)
        · rcases List.mem_cons.mp h with h | h
          · subst h
            apply hal
            have hk : (n' + 1) % alpha.length < alpha.length := Nat.mod_lt _ (by omega)
            rw [hc0, List.getD_eq_getElem _ _ hk]
            exact List.getElem_mem hk
          · exact hval b (List.mem_of_mem_drop h)
      have hrel2 : r ≤ (val.set r c0).length := by
        rw [List.length_set]; omega
      have hidx : spacePos name pre val post + (r + 1) - 1
          = spacePos name pre (val.set r c0) post + r := by
        rw [spacePos_set]; omega
      rw [hidx, ih n2 hlt f' (val.set r c0) r hn2p
        (Nat.lt_succ_iff.mp (lt_of_lt_of_le hlt hf)) hval2 hrel2 hd2]
      congr 1
      have hA : (val.take r).length = r := by
        rw [List.length_take]; omega
      have hdr : (val.set r c0).drop r = c0 :: val.drop (r + 1) := by
        rw [hvs, List.drop_append_eq_append_drop, hA, Nat.sub_self, List.drop_zero,
          List.drop_eq_nil_of_le hA.le, List.nil_append]
      rw [hdr]
      have htk : (digitsRev alpha (n' + 1)).take (r + 1)
          = c0 :: (digitsRev alpha n2).take r := by
        rw [hds, List.take_succ_cons]
      rw [htk, List.reverse_cons]
      simp [List.append_assoc]

lemma renderLoop_done {f : Nat} {val : List Nat} {t : Nat}
    (h2 : 2 ≤ alpha.length) (hal : ∀ b ∈ alpha, b ≠ 32)
    (hval : ∀ b ∈ val, b ≠ 32) (hrel : (digitsRev alpha t).length = val.length)
    (hf : t ≤ f) :
    renderLoop alpha f (fieldObj name pre val post)
      (spacePos name pre val post + val.length) t
      = .ok (fieldObj name pre (msfDigits alpha t) post) := by
  by_cases ht : t = 0
  · subst ht
    rw [renderLoop_zero]
    have : val = [] := by
      have := hrel
      rw [digitsRev_zero] at this
      simpa using this.symm
    subst this
    rfl
  · rw [renderLoop_ok h2 hal t f val val.length (by omega) hf hval (le_refl _) hrel.le]
    rw [hrel, Nat.sub_self, List.take_zero, List.drop_length, List.nil_append,
      List.append_nil]

end RenderFacts

section DecLenFacts

lemma decDigitsCore_zero : ∀ f, decDigitsCore f 0 = [] := by
  intro f; cases f <;> simp [decDigitsCore]

lemma decDigitsCore_length : ∀ (f n : Nat), 1 ≤ n → n ≤ f →
    (decDigitsCore f n).length = Nat.log 10 n + 1 := by
  intro f
  induction f with
  | zero => intro n h1 h2; omega
  | succ f ih =>
    intro n h1 h2
    rw [decDigitsCore, if_neg (by omega)]
    rcases Nat.lt_or_ge n 10 with hlt | hge
    · have hz : n / 10 = 0 := Nat.div_eq_of_lt hlt
      rw [hz, decDigitsCore_zero]
      have : Nat.log 10 n = 0 := Nat.log_eq_zero_iff.mpr (Or.inl hlt)
      simp [this]
    · have hq1 : 1 ≤ n / 10 := Nat.le_div_iff_mul_le (by norm_num) |>.mpr (by omega)
      have hqf : n / 10 ≤ f := by
        have := Nat.div_lt_self (show 0 < n by omega) (show 1 < 10 by norm_num)
        omega
      rw [List.length_append, ih (n / 10) hq1 hqf]
      have hpos : 0 < Nat.log 10 n := Nat.log_pos (by norm_num) hge
      have hdiv : Nat.log 10 (n / 10) = Nat.log 10 n - 1 := Nat.log_div_base 10 n
      simp [hdiv]
      omega

lemma decDigits_length {n : Nat} (hn : 1 ≤ n) :
    (decDigits n).length = Nat.log 10 n + 1 := by
  rw [decDigits, if_neg (by omega)]
  exact decDigitsCore_length n n hn (le_refl _)

lemma decLen_succ {L : Nat} (hL : 1 ≤ L) :
    (decDigits L).length ≤ (decDigits (L + 1)).length ∧
      (decDigits (L + 1)).length ≤ (decDigits L).length + 1 := by
  rw [decDigits_length hL, decDigits_length (by omega)]
  constructor
  · have := @Nat.log_mono_right 10 L (L + 1) (show L ≤ L + 1 by omega)
    omega
  · have h1 : Nat.log 10 (L + 1) ≤ Nat.log 10 (L * 10) :=
      Nat.log_mono_right (by omega)
    have h2 : Nat.log 10 (L * 10) = Nat.log 10 L + 1 :=
      Nat.log_mul_base (by norm_num) (by omega)
    omega

lemma decLen_two {L : Nat} (hL : 1 ≤ L)
    (h : (decDigits (L + 1)).length = (decDigits L).length + 1) :
    (decDigits (L + 2)).length = (decDigits (L + 1)).length := by
  rw [decDigits_length (by omega), decDigits_length (by omega)]
  rw [decDigits_length hL, decDigits_length (by omega)] at h
  have h1 : Nat.log 10 (L + 2) ≤ Nat.log 10 (L * 10) :=
    Nat.log_mono_right (by omega)
  have h2 : Nat.log 10 (L * 10) = Nat.log 10 L + 1 :=
    Nat.log_mul_base (by norm_num) (by omega)
  have h3 := @Nat.log_mono_right 10 (L + 1) (L + 2) (show L + 1 ≤ L + 2 by omega)
  omega

end DecLenFacts

section WriteFacts

variable {alpha name pre post : List Nat}

lemma spacePos_formula {val : List Nat} :
    spacePos name pre val post
      = 8 + (decDigits (pre.length + name.length + val.length + post.length + 3)).length
        + pre.length + 1 + name.length := by
  rw [spacePos_eq, hl, fieldContent_length]

lemma grow_step (h2 : 2 ≤ alpha.length) (hal : ∀ b ∈ alpha, b ≠ 32)
    (Hname : ∀ b ∈ name, b ≠ 10)
    (Hpre : ∀ q < pre.length,
      (nonceHdr name).isPrefixOf ((pre ++ nonceHdr name).drop q) = false)
    {val : List Nat} {rel t : Nat}
    (ht : 1 ≤ t) (hval : ∀ b ∈ val, b ≠ 32) (hrel : rel ≤ val.length)
    (hd : rel < (digitsRev alpha t).length) (fuel : Nat) :
    writeNonce alpha name (fuel + 1) (fieldObj name pre val post)
        (spacePos name pre val post + rel) t
      = writeNonce alpha name fuel
          (fieldObj name pre
            (48 :: (((digitsRev alpha t).take rel).reverse ++ val.drop rel)) post)
          (spacePos name pre val post + rel + 1) t := by
  simp only [writeNonce,
    renderLoop_grow h2 hal t t val rel ht (le_refl t) hval hrel hd,
    growNonce_field Hname Hpre]

lemma growVal_length {val : List Nat} {rel t : Nat} (hrel : rel ≤ val.length)
    (hd : rel ≤ (digitsRev alpha t).length) :
    (((digitsRev alpha t).take rel).reverse ++ val.drop rel).length = val.length := by
  rw [List.length_append, List.length_reverse, List.length_take, List.length_drop]
  omega

lemma growVal_chars (h2 : 2 ≤ alpha.length) (hal : ∀ b ∈ alpha, b ≠ 32)
    {val : List Nat} {rel t : Nat} (hval : ∀ b ∈ val, b ≠ 32) :
    ∀ b ∈ 48 :: (((digitsRev alpha t).take rel).reverse ++ val.drop rel), b ≠ 32 := by
  intro b hb
  rcases List.mem_cons.mp hb with h | h
  · omega
  · rcases List.mem_append.mp h with h | h
    · have : b ∈ digitsRev alpha t := List.mem_of_mem_take (List.mem_reverse.mp h)
      exact hal b (digitsRev_mem h2 t b this)
    · exact hval b (List.mem_of_mem_drop h)

lemma writeNonce_exact (h2 : 2 ≤ alpha.length) (hal : ∀ b ∈ alpha, b ≠ 32)
    (Hname : ∀ b ∈ name, b ≠ 10)
    (Hpre : ∀ q < pre.length,
      (nonceHdr name).isPrefixOf ((pre ++ nonceHdr name).drop q) = false) :
    ∀ (g : Nat) (val : List Nat) (t : Nat), 1 ≤ t →
      (∀ b ∈ val, b ≠ 32) →
      val.length + g = (digitsRev alpha t).length →
      (∀ k, k ≤ g → (decDigits ((fieldContent name pre val post).length + k)).length
        = (decDigits (fieldContent name pre val post).length).length) →
      writeNonce alpha name (g + 1) (fieldObj name pre val post)
        (spacePos name pre val post + val.length) t
        = some (fieldObj name pre (msfDigits alpha t) post,
            spacePos name pre val post + (digitsRev alpha t).length) := by
  intro g
  induction g with
  | zero =>
    intro val t ht hval hlen _
    rw [Nat.add_zero] at hlen
    simp only [writeNonce, renderLoop_done h2 hal hval hlen.symm (le_refl t)]
    rw [hlen]
  | succ g ih =>
    intro val t ht hval hlen hnc
    have hd : val.length < (digitsRev alpha t).length := by omega
    rw [grow_step h2 hal Hname Hpre ht hval (le_refl _) hd]
    set valG := ((digitsRev alpha t).take val.length).reverse ++ val.drop val.length
      with hvG
    have hvGlen : valG.length = val.length := growVal_length (le_refl _) hd.le
    have hL1 : (fieldContent name pre (48 :: valG) post).length
        = (fieldContent name pre val post).length + 1 := by
      rw [fieldContent_length, fieldContent_length]
      simp [hvGlen]
      omega
    have hsp : spacePos name pre (48 :: valG) post = spacePos name pre val post := by
      rw [spacePos_eq, spacePos_eq, hl, hl, hL1, hnc 1 (by omega)]
    have hidx : spacePos name pre val post + val.length + 1
        = spacePos name pre (48 :: valG) post + (48 :: valG).length := by
      rw [hsp]
      simp only [List.length_cons, hvGlen]
      omega
    rw [hidx, ih (48 :: valG) t ht (growVal_chars h2 hal hval) (by simp [hvGlen]; omega)
      (by
        intro k hk
        rw [hL1, show (fieldContent name pre val post).length + 1 + k
          = (fieldContent name pre val post).length + (1 + k) by omega,
          hnc (1 + k) (by omega), hnc 1 (by omega)]), hsp]

lemma writeNonce_term (h2 : 2 ≤ alpha.length) (hal : ∀ b ∈ alpha, b ≠ 32)
    (Hname : ∀ b ∈ name, b ≠ 10)
    (Hpre : ∀ q < pre.length,
      (nonceHdr name).isPrefixOf ((pre ++ nonceHdr name).drop q) = false) :
    ∀ (m : Nat) (val : List Nat) (rel t : Nat), 1 ≤ t →
      (∀ b ∈ val, b ≠ 32) →
      rel ≤ val.length →
      (digitsRev alpha t).length ≤ rel + m →
      ∃ fuel obj2 idx2,
        writeNonce alpha name fuel (fieldObj name pre val post)
          (spacePos name pre val post + rel) t = some (obj2, idx2) := by
  intro m
  induction m using Nat.strong_induction_on with
  | _ m ih =>
    intro val rel t ht hval hrel hdm
    rcases le_or_lt (digitsRev alpha t).length rel with hd | hd
    · refine ⟨1, fieldObj name pre
        (val.take (rel - (digitsRev alpha t).length) ++ msfDigits alpha t
          ++ val.drop rel) post, spacePos name pre val post + rel, ?_⟩
      simp only [writeNonce, renderLoop_ok h2 hal t t val rel ht (le_refl t) hval hrel hd]
    · have hm1 : 1 ≤ m := by omega
      set valG := ((digitsRev alpha t).take rel).reverse ++ val.drop rel with hvG
      have hvGlen : valG.length = val.length := growVal_length hrel hd.le
      have hcharsG : ∀ b ∈ 48 :: valG, b ≠ 32 := growVal_chars h2 hal hval
      have hL1 : (fieldContent name pre (48 :: valG) post).length
          = (fieldContent name pre val post).length + 1 := by
        rw [fieldContent_length, fieldContent_length]
        simp only [List.length_cons, hvGlen]
        omega
      have hL0pos : 1 ≤ (fieldContent name pre val post).length := by
        rw [fieldContent_length]; omega
      have hdelta := @decLen_succ ((fieldContent name pre val post).length) hL0pos
      rcases Nat.lt_or_ge
        ((decDigits ((fieldContent name pre val post).length + 1)).length)
        ((decDigits (fieldContent name pre val post).length).length + 1) with hlo | hhi
      · have hδ0 : (decDigits ((fieldContent name pre val post).length + 1)).length
            = (decDigits (fieldContent name pre val post).length).length := by omega
        have hsp : spacePos name pre (48 :: valG) post = spacePos name pre val post := by
          rw [spacePos_eq, spacePos_eq, hl, hl, hL1, hδ0]
        obtain ⟨fuel, obj2, idx2, hrun⟩ := ih (m - 1) (by omega) (48 :: valG) (rel + 1) t ht
          hcharsG (by simp only [List.length_cons, hvGlen]; omega) (by omega)
        refine ⟨fuel + 1, obj2, idx2, ?_⟩
        rw [grow_step h2 hal Hname Hpre ht hval hrel hd fuel]
        rw [show spacePos name pre val post + rel + 1
          = spacePos name pre (48 :: valG) post + (rel + 1) by rw [hsp]; omega]
        exact hrun
      · have hδ1 : (decDigits ((fieldContent name pre val post).length + 1)).length
            = (decDigits (fieldContent name pre val post).length).length + 1 := by omega
        have hsp : spacePos name pre (48 :: valG) post
            = spacePos name pre val post + 1 := by
          rw [spacePos_eq, spacePos_eq, hl, hl, hL1, hδ1]
          omega
        set valG2 := ((digitsRev alpha t).take rel).reverse ++ (48 :: valG).drop rel
          with hvG2
        have hrel1 : rel ≤ (48 :: valG).length := by
          simp only [List.length_cons, hvGlen]; omega
        have hvG2len : valG2.length = (48 :: valG).length := growVal_length hrel1 hd.le
        have hchars2 : ∀ b ∈ 48 :: valG2, b ≠ 32 := growVal_chars h2 hal hcharsG
        have hL2 : (fieldContent name pre (48 :: valG2) post).length
            = (fieldContent name pre val post).length + 2 := by
          rw [fieldContent_length, fieldContent_length]
          simp only [List.length_cons, hvG2len, hvGlen]
          omega
        have hδ2 := decLen_two hL0pos hδ1
        have hsp2 : spacePos name pre (48 :: valG2) post
            = spacePos name pre val post + 1 := by
          rw [spacePos_eq, spacePos_eq, hl, hl, hL2, hδ2, hδ1]
          omega
        obtain ⟨fuel, obj2, idx2, hrun⟩ := ih (m - 1) (by omega) (48 :: valG2) (rel + 1) t ht
          hchars2 (by simp only [List.length_cons, hvG2len, hvGlen]; omega) (by omega)
        refine ⟨fuel + 2, obj2, idx2, ?_⟩
        rw [grow_step h2 hal Hname Hpre ht hval hrel hd (fuel + 1)]
        rw [show spacePos name pre val post + rel + 1
          = spacePos name pre (48 :: valG) post + rel by rw [hsp]; omega]
        rw [grow_step h2 hal Hname Hpre ht hcharsG hrel1 hd fuel]
        rw [show spacePos name pre (48 :: valG) post + rel + 1
          = spacePos name pre (48 :: valG2) post + (rel + 1) by rw [hsp, hsp2]; omega]
        exact hrun

lemma okVal_chars (h2 : 2 ≤ alpha.length) (hal : ∀ b ∈ alpha, b ≠ 32)
    {val : List Nat} {rel t : Nat} (hval : ∀ b ∈ val, b ≠ 32) :
    ∀ b ∈ val.take (rel - (digitsRev alpha t).length) ++ msfDigits alpha t
        ++ val.drop rel, b ≠ 32 := by
  intro b hb
  rcases List.mem_append.mp hb with h | h
  · rcases List.mem_append.mp h with h | h
    · exact hval b (List.mem_of_mem_take h)
    · exact hal b (digitsRev_mem h2 t b (List.mem_reverse.mp h))
  · exact hval b (List.mem_of_mem_drop h)

lemma writeNonce_shape (h2 : 2 ≤ alpha.length) (hal : ∀ b ∈ alpha, b ≠ 32)
    (Hname : ∀ b ∈ name, b ≠ 10)
    (Hpre : ∀ q < pre.length,
      (nonceHdr name).isPrefixOf ((pre ++ nonceHdr name).drop q) = false) :
    ∀ (fuel : Nat) (val : List Nat) (rel t : Nat) (res : List Nat × Nat),
      (∀ b ∈ val, b ≠ 32) → rel ≤ val.length →
      writeNonce alpha name fuel (fieldObj name pre val post)
        (spacePos name pre val post + rel) t = some res →
      ∃ val2, res.1 = fieldObj name pre val2 post ∧ (∀ b ∈ val2, b ≠ 32) := by
  intro fuel
  induction fuel with
  | zero =>
    intro val rel t res _ _ h
    exact absurd h (by simp [writeNonce])
  | succ fuel ih =>
    intro val rel t res hval hrel h
    by_cases ht : t = 0
    · subst ht
      rw [show writeNonce alpha name (fuel + 1) (fieldObj name pre val post)
          (spacePos name pre val post + rel) 0
          = some (fieldObj name pre val post, spacePos name pre val post + rel) from by
        simp only [writeNonce, renderLoop_zero]] at h
      refine ⟨val, ?_, hval⟩
      have := (Option.some.injEq _ _).mp h
      rw [← this]
    · rcases le_or_lt (digitsRev alpha t).length rel with hd | hd
      · rw [show writeNonce alpha name (fuel + 1) (fieldObj name pre val post)
            (spacePos name pre val post + rel) t
            = some (fieldObj name pre
                (val.take (rel - (digitsRev alpha t).length) ++ msfDigits alpha t
                  ++ val.drop rel) post, spacePos name pre val post + rel) from by
          simp only [writeNonce,
            renderLoop_ok h2 hal t t val rel (by omega) (le_refl t) hval hrel hd]] at h
        refine ⟨val.take (rel - (digitsRev alpha t).length) ++ msfDigits alpha t
          ++ val.drop rel, ?_, @okVal_chars alpha h2 hal val rel t hval⟩
        have := (Option.some.injEq _ _).mp h
        rw [← this]
      · rw [grow_step h2 hal Hname Hpre (by omega) hval hrel hd fuel] at h
        set valG := ((digitsRev alpha t).take rel).reverse ++ val.drop rel with hvG
        have hvGlen : valG.length = val.length := growVal_length hrel hd.le
        have hcharsG : ∀ b ∈ 48 :: valG, b ≠ 32 := growVal_chars h2 hal hval
        have hL1 : (fieldContent name pre (48 :: valG) post).length
            = (fieldContent name pre val post).length + 1 := by
          rw [fieldContent_length, fieldContent_length]
          simp only [List.length_cons, hvGlen]
          omega
        have hL0pos : 1 ≤ (fieldContent name pre val post).length := by
          rw [fieldContent_length]; omega
        have hdelta := @decLen_succ ((fieldContent name pre val post).length) hL0pos
        rcases Nat.lt_or_ge
          ((decDigits ((fieldContent name pre val post).length + 1)).length)
          ((decDigits (fieldContent name pre val post).length).length + 1) with hlo | hhi
        · have hδ0 : (decDigits ((fieldContent name pre val post).length + 1)).length
              = (decDigits (fieldContent name pre val post).length).length := by omega
          have hsp : spacePos name pre (48 :: valG) post = spacePos name pre val post := by
            rw [spacePos_eq, spacePos_eq, hl, hl, hL1, hδ0]
          rw [show spacePos name pre val post + rel + 1
            = spacePos name pre (48 :: valG) post + (rel + 1) by rw [hsp]; omega] at h
          exact ih (48 :: valG) (rel + 1) t res hcharsG
            (by simp only [List.length_cons, hvGlen]; omega) h
        · have hδ1 : (decDigits ((fieldContent name pre val post).length + 1)).length
              = (decDigits (fieldContent name pre val post).length).length + 1 := by omega
          have hsp : spacePos name pre (48 :: valG) post
              = spacePos name pre val post + 1 := by
            rw [spacePos_eq, spacePos_eq, hl, hl, hL1, hδ1]
            omega
          rw [show spacePos name pre val post + rel + 1
            = spacePos name pre (48 :: valG) post + rel by rw [hsp]; omega] at h
          exact ih (48 :: valG) rel t res hcharsG
            (by simp only [List.length_cons, hvGlen]; omega) h

end WriteFacts

section ParseFacts

variable {alpha : List Nat}

lemma specParse_append_singleton {ds : List Nat} {c : Nat} :
    specParse alpha (ds ++ [c])
      = (specParse alpha ds) * alpha.length + alpha.indexOf c := by
  simp [specParse, List.foldl_append]

lemma specParse_msf (h2 : 2 ≤ alpha.length) (hnd : alpha.Nodup) :
    ∀ t, specParse alpha (msfDigits alpha t) = t := by
  intro t
  induction t using Nat.strong_induction_on with
  | _ t ih =>
    by_cases ht : t = 0
    · subst ht; rfl
    · rw [msfDigits, digitsRev_succ h2 (by omega), List.reverse_cons]
      rw [show (digitsRev alpha (t / alpha.length)).reverse
        = msfDigits alpha (t / alpha.length) from rfl]
      rw [specParse_append_singleton,
        ih (t / alpha.length) (Nat.div_lt_self (by omega) (by omega))]
      have hk : t % alpha.length < alpha.length := Nat.mod_lt _ (by omega)
      rw [List.getD_eq_getElem _ _ hk, List.indexOf_getElem hnd _ hk]
      exact Nat.div_add_mod' t alpha.length

end ParseFacts

section HexFacts

lemma hexBytes_append {u v : List Nat} :
    hexBytes (u ++ v) = hexBytes u ++ hexBytes v := by
  induction u with
  | nil => rfl
  | cons b t ih => simp [hexBytes, ih]

lemma hexBytes_length {v : List Nat} : (hexBytes v).length = 2 * v.length := by
  induction v with
  | nil => rfl
  | cons b t ih => simp [hexBytes, ih]; omega

lemma take_set_le {l : List Nat} {p n x : Nat} (h : n ≤ p) :
    (l.set p x).take n = l.take n := by
  rcases Nat.lt_or_ge p l.length with hp | hp
  · rw [List.set_eq_take_cons_drop x hp, List.take_append_eq_append_take]
    have hlen : (l.take p).length = p := by rw [List.length_take]; omega
    rw [hlen, Nat.sub_eq_zero_of_le h, List.take_zero, List.append_nil, List.take_take,
      min_eq_left h]
  · rw [List.set_eq_of_length_le hp]

lemma drop_set_self {l : List Nat} {p x : Nat} (hp : p < l.length) :
    (l.set p x).drop p = x :: l.drop (p + 1) := by
  rw [List.set_eq_take_cons_drop x hp, List.drop_append_eq_append_drop]
  have hlen : (l.take p).length = p := by rw [List.length_take]; omega
  rw [hlen, Nat.sub_self, List.drop_zero, List.drop_eq_nil_of_le hlen.le, List.nil_append]

lemma hexStep_take {a : List Nat} {i : Nat} :
    (hexStep a i).take i = a.take i := by
  rw [hexStep]
  rw [take_set_le (by omega), take_set_le (by omega)]

lemma hexStep_drop {a : List Nat} {i : Nat} (h : 2 * i + 1 < a.length) :
    (hexStep a i).drop (2 * i)
      = hexDigit (a.getD i 0 / 16) :: hexDigit (a.getD i 0 % 16) :: a.drop (2 * i + 2) := by
  rw [hexStep, List.drop_set, if_neg (by omega)]
  have h1 : 2 * i < a.length := by omega
  rw [drop_set_self h1]
  have : 2 * i + 1 - 2 * i = 1 := by omega
  rw [this]
  have hd : a.drop (2 * i + 1) = a[2 * i + 1] :: a.drop (2 * i + 2) :=
    List.drop_eq_getElem_cons h
  rw [hd]
  rfl

lemma hexLoop_spec : ∀ (i : Nat) (a : List Nat), 2 * i ≤ a.length →
    hexLoop a i = hexBytes (a.take i) ++ a.drop (2 * i) := by
  intro i
  induction i with
  | zero => intro a h; simp [hexLoop, hexBytes]
  | succ i ih =>
    intro a h
    rw [hexLoop, ih (hexStep a i) (by
      rw [hexStep, List.length_set, List.length_set]; omega)]
    rw [hexStep_take, hexStep_drop (by omega)]
    have hia : i < a.length := by omega
    have htk : a.take (i + 1) = a.take i ++ [a.getD i 0] := by
      rw [List.take_succ, List.getD_eq_getElem _ _ hia]
      simp [List.getElem?_eq_getElem hia]
    rw [htk, hexBytes_append]
    have : hexBytes [a.getD i 0]
        = [hexDigit (a.getD i 0 / 16), hexDigit (a.getD i 0 % 16)] := rfl
    rw [this]
    have h22 : 2 * (i + 1) = 2 * i + 2 := by omega
    rw [h22]
    simp [List.append_assoc]

lemma hexInPlace_spec {a : List Nat} {n : Nat} (h : 2 * n ≤ a.length) :
    hexInPlace a n = hexBytes (a.take n) := by
  rw [hexInPlace, hexLoop_spec n a h, List.take_append_eq_append_take, hexBytes_length]
  have hlt : (a.take n).length = n := by rw [List.length_take]; omega
  rw [hlt, Nat.sub_eq_zero_of_le (by omega), List.take_zero, List.append_nil,
    List.take_of_length_le (by rw [hexBytes_length, hlt])]

end HexFacts

section RunFacts

lemma bruteForceRun_matches {digest : List Nat → List Nat} {rmatch : List Nat → Bool}
    {alpha name : List Nat} {wfuel : Nat} {doneAt : Nat → Bool} :
    ∀ (cands : List Int) (obj : List Nat) (idx k : Nat) (w : List Nat),
      bruteForceRun digest rmatch alpha name wfuel doneAt obj idx k cands = some w →
      rmatch (sumThenHex digest w) = true := by
  intro cands
  induction cands with
  | nil => intro obj idx k w h; exact absurd h (by simp [bruteForceRun])
  | cons t ts ih =>
    intro obj idx k w h
    rw [bruteForceRun] at h
    by_cases hdone : doneAt k
    · rw [if_pos hdone] at h; cases h
    · rw [if_neg hdone] at h
      cases hw : writeNonce alpha name wfuel obj idx t.toNat with
      | none => rw [hw] at h; cases h
      | some p =>
        obtain ⟨obj2, idx2⟩ := p
        simp only [hw] at h
        by_cases hm : rmatch (sumThenHex digest obj2) = true
        · rw [if_pos hm] at h
          have := (Option.some.injEq _ _).mp h
          rw [← this]
          exact hm
        · rw [if_neg hm] at h
          exact ih obj2 idx2 (k + 1) w h

lemma bruteForceRun_noMatch {digest : List Nat → List Nat} {rmatch : List Nat → Bool}
    {alpha name : List Nat} {wfuel : Nat} {doneAt : Nat → Bool}
    (hfalse : ∀ s, rmatch s = false) :
    ∀ (cands : List Int) (obj : List Nat) (idx k : Nat),
      bruteForceRun digest rmatch alpha name wfuel doneAt obj idx k cands = none := by
  intro cands
  induction cands with
  | nil => intro obj idx k; rfl
  | cons t ts ih =>
    intro obj idx k
    rw [bruteForceRun]
    by_cases hdone : doneAt k
    · rw [if_pos hdone]
    · rw [if_neg hdone]
      cases hw : writeNonce alpha name wfuel obj idx t.toNat with
      | none => rfl
      | some p =>
        obtain ⟨obj2, idx2⟩ := p
        simp only [hw, hfalse, Bool.false_eq_true, if_false]
        exact ih obj2 idx2 (k + 1)

end RunFacts

section ExploreFacts

lemma exploreState_succ (k : Nat) : exploreState (k + 1) = incWrap (exploreState k) := by
  rw [exploreState, exploreState, Function.iterate_succ_apply']

lemma exploreState_closed : ∀ k : Nat, k ≤ 18446744073709551616 →
    exploreState k = if k < 9223372036854775808 then (k : Int)
      else (k : Int) - 18446744073709551616 := by
  intro k
  induction k with
  | zero => intro _; norm_num [exploreState]
  | succ k ih =>
    intro hk
    rw [exploreState_succ, ih (by omega), incWrap]
    by_cases hlt : k < 9223372036854775808
    · rw [if_pos hlt]
      by_cases heq : ((k : Nat) : Int) = 9223372036854775807
      · have hkv : k = 9223372036854775807 := by exact_mod_cast heq
        rw [if_pos heq, if_neg (by omega)]
        subst hkv
        norm_num
      · have hkv : k ≠ 9223372036854775807 := by
          intro hc; exact heq (by exact_mod_cast hc)
        rw [if_neg heq, if_pos (by omega)]
        push_cast
        ring
    · rw [if_neg hlt]
      have hne : ((k : Nat) : Int) - 18446744073709551616 ≠ 9223372036854775807 := by
        omega
      rw [if_neg hne, if_neg (by omega)]
      push_cast
      ring

end ExploreFacts

section RegexFacts

lemma goReMatch_of_anchored {p : List RTok} {s : List Nat}
    (h : matchAtIdx s p 0 = true) : goReMatch p s = true :=
  List.any_eq_true.mpr ⟨0, by simp, h⟩

lemma goReMatch_caret {p : List RTok} {s : List Nat} :
    goReMatch (RTok.caret :: p) s = matchAtIdx s (RTok.caret :: p) 0 := by
  cases hm : matchAtIdx s (RTok.caret :: p) 0 with
  | true => exact goReMatch_of_anchored hm
  | false =>
    rw [goReMatch, List.any_eq_false]
    intro i hi
    cases i with
    | zero => exact Bool.eq_false_iff.mp hm
    | succ i => simp [matchAtIdx]

end RegexFacts

section AbsentFacts

variable {name pre post : List Nat}

lemma getD_drop {l : List Nat} {n m d : Nat} :
    (l.drop n).getD m d = l.getD (n + m) d := by
  rw [List.getD_eq_getElem?_getD, List.getD_eq_getElem?_getD, List.getElem?_drop]

lemma getD_take {l : List Nat} {n m d : Nat} (h : m < n) :
    (l.take n).getD m d = l.getD m d := by
  rw [List.getD_eq_getElem?_getD, List.getD_eq_getElem?_getD,
    List.getElem?_take_of_lt h]

lemma getD_mem_of_lt {l : List Nat} {m d : Nat} (h : m < l.length) :
    l.getD m d ∈ l := by
  rw [List.getD_eq_getElem _ _ h]
  exact List.getElem_mem h

lemma Hpre_of_absent (Hname10 : ∀ b ∈ name, b ≠ 10)
    (Habsent : bytesContains (wrapObj (pre ++ [10, 10] ++ post)) (nonceHdr name) = false) :
    ∀ q < pre.length,
      (nonceHdr name).isPrefixOf ((pre ++ nonceHdr name).drop q) = false := by
  intro q hq
  by_contra hc
  have h : (nonceHdr name).isPrefixOf ((pre ++ nonceHdr name).drop q) = true := by
    revert hc; cases hx : (nonceHdr name).isPrefixOf ((pre ++ nonceHdr name).drop q) <;> simp
  have hnone : firstMatch (nonceHdr name) (wrapObj (pre ++ [10, 10] ++ post)) = none := by
    rw [bytesContains] at Habsent
    cases hfm : firstMatch (nonceHdr name) (wrapObj (pre ++ [10, 10] ++ post)) with
    | none => rfl
    | some v => rw [hfm] at Habsent; simp at Habsent
  have hno := firstMatch_none hnone
  rcases Nat.lt_or_ge (q + (nonceHdr name).length) (pre.length + 1) with hin | hstrad
  · -- the window lies inside pre: the same window occurs in the absent buffer
    have hdropq : (pre ++ nonceHdr name).drop q = pre.drop q ++ nonceHdr name := by
      rw [List.drop_append_eq_append_drop, Nat.sub_eq_zero_of_le (by omega), List.drop_zero]
    have hlenq : (nonceHdr name).length ≤ (pre.drop q).length := by
      rw [List.length_drop]; omega
    rw [hdropq, isPrefixOf_trunc hlenq] at h
    -- occurrence at header-length + q in the original buffer
    set L := (pre ++ [10, 10] ++ post).length with hL
    have hdrop0 : (wrapObj (pre ++ [10, 10] ++ post)).drop ((hdrBytes L).length + q)
        = pre.drop q ++ ([10, 10] ++ post) := by
      have hshape : wrapObj (pre ++ [10, 10] ++ post)
          = hdrBytes L ++ (pre ++ ([10, 10] ++ post)) := by
        simp [wrapObj, hdrBytes, hL, List.append_assoc]
      rw [hshape, List.drop_append_eq_append_drop,
        List.drop_eq_nil_of_le (Nat.le_add_right _ _), Nat.add_sub_cancel_left,
        List.nil_append, List.drop_append_eq_append_drop,
        Nat.sub_eq_zero_of_le (by omega), List.drop_zero]
    have := hno ((hdrBytes L).length + q)
    rw [hdrop0, isPrefixOf_trunc hlenq, h] at this
    cases this
  · -- straddling window: impossible because only the head of "\n<name> " is a newline
    exfalso
    have hwin : nonceHdr name
        = ((pre ++ nonceHdr name).drop q).take (nonceHdr name).length := by
      rw [List.isPrefixOf_iff_prefix, List.prefix_iff_eq_take] at h
      exact h
    obtain ⟨m, hm⟩ : ∃ m, m = pre.length - q := ⟨_, rfl⟩
    have hm1 : 1 ≤ m := by omega
    have hnhlen : (nonceHdr name).length = name.length + 2 := by
      rw [nonceHdr]; simp
    have hmlt : m < (nonceHdr name).length := by omega
    have hval1 : ((pre ++ nonceHdr name).drop q).getD m 0 = 10 := by
      rw [getD_drop]
      have hqm : q + m = pre.length := by omega
      rw [hqm, List.getD_append_right _ _ _ _ (le_refl _), Nat.sub_self, nonceHdr]
      rfl
    have hval2 : (nonceHdr name).getD m 0 = 10 := by
      conv_lhs => rw [hwin]
      rw [getD_take hmlt]
      exact hval1
    obtain ⟨m', rfl⟩ : ∃ m', m = m' + 1 := ⟨m - 1, by omega⟩
    have hcons : (nonceHdr name).getD (m' + 1) 0 = (name ++ [32]).getD m' 0 := by
      rw [nonceHdr]
      rfl
    rw [hcons] at hval2
    have hmem : (name ++ [32]).getD m' 0 ∈ name ++ [32] := by
      apply getD_mem_of_lt
      simp only [List.length_append, List.length_cons, List.length_nil]
      omega
    rw [hval2] at hmem
    rcases List.mem_append.mp hmem with hh | hh
    · exact Hname10 10 hh rfl
    · simp at hh

end AbsentFacts

section InsertFacts

variable {name pre post : List Nat}

lemma bytesIndex_sep (Hsep : ∀ q < pre.length,
      ([10, 10] : List Nat).isPrefixOf ((pre ++ [10, 10]).drop q) = false) :
    bytesIndex (wrapObj (pre ++ [10, 10] ++ post)) [10, 10]
      = (((hdrBytes (pre ++ [10, 10] ++ post).length).length + pre.length : Nat) : Int) := by
  rw [bytesIndex]
  have hshape : wrapObj (pre ++ [10, 10] ++ post)
      = hdrBytes (pre ++ [10, 10] ++ post).length
        ++ (pre ++ (((10 : Nat) :: [10]) ++ post)) := by
    simp [wrapObj, hdrBytes, List.append_assoc]
  rw [hshape, firstMatch_zone ?hh ?hp]
  case hh => exact fun x hx => hdrBytes_ne10 x hx
  case hp => exact Hsep

lemma addOrFindNonce_insert
    (Hname10 : ∀ b ∈ name, b ≠ 10)
    (Habsent : bytesContains (wrapObj (pre ++ [10, 10] ++ post)) (nonceHdr name) = false)
    (Hsep : ∀ q < pre.length,
      ([10, 10] : List Nat).isPrefixOf ((pre ++ [10, 10]).drop q) = false) :
    addOrFindNonce name (wrapObj (pre ++ [10, 10] ++ post))
      = (fieldObj name pre [] (10 :: post), spacePos name pre [] (10 :: post)) := by
  have Hpre1 := Hpre_of_absent Hname10 Habsent
  have hins : fixHeader ((wrapObj (pre ++ [10, 10] ++ post)).take
        (bytesIndex (wrapObj (pre ++ [10, 10] ++ post)) [10, 10]).toNat
      ++ nonceHdr name
      ++ (wrapObj (pre ++ [10, 10] ++ post)).drop
        (bytesIndex (wrapObj (pre ++ [10, 10] ++ post)) [10, 10]).toNat)
      = fieldObj name pre [] (10 :: post) := by
    rw [bytesIndex_sep Hsep]
    have htn : ((((hdrBytes (pre ++ [10, 10] ++ post).length).length
        + pre.length : Nat) : Int)).toNat
        = (hdrBytes (pre ++ [10, 10] ++ post).length).length + pre.length := by omega
    rw [htn]
    have hlen : (hdrBytes (pre ++ [10, 10] ++ post).length ++ pre).length
        = (hdrBytes (pre ++ [10, 10] ++ post).length).length + pre.length := by
      simp
    have hshape : wrapObj (pre ++ [10, 10] ++ post)
        = (hdrBytes (pre ++ [10, 10] ++ post).length ++ pre) ++ ([10, 10] ++ post) := by
      simp [wrapObj, hdrBytes, List.append_assoc]
    rw [hshape, List.take_left' hlen, List.drop_left' hlen]
    have hshape2 : (hdrBytes (pre ++ [10, 10] ++ post).length ++ pre)
        ++ nonceHdr name ++ ([10, 10] ++ post)
        = commitLit ++ decDigits (pre ++ [10, 10] ++ post).length ++ [0]
          ++ fieldContent name pre [] (10 :: post) := by
      simp [hdrBytes, fieldContent, nonceHdr, List.append_assoc]
    rw [hshape2, fixHeader_shape (fun _ hx => decDigits_mem hx)]
    rfl
  have hcont : bytesContains (fieldObj name pre [] (10 :: post)) (nonceHdr name) = true :=
    bytesContains_field Hname10 Hpre1
  have h2 := @addOrFindNonce_found name pre ([] : List Nat) (10 :: post)
    Hname10 Hpre1 (by simp)
  simp only [addOrFindNonce, hcont, if_true] at h2
  have h3 := congrArg Prod.snd h2
  simp only at h3
  simp only [addOrFindNonce, Habsent, Bool.false_eq_true, if_false]
  rw [hins, Prod.mk.injEq]
  refine ⟨rfl, ?_⟩
  rw [h3]
  simp

end InsertFacts

section ClaimConstants

/-- The default field name "nonce" (flag -nonce-name). -/
def nonceName : List Nat := [110, 111, 110, 99, 101]

/-- The default alphabet "0123456789" (flag -nonce-chars). -/
def decAlpha : List Nat := [48, 49, 50, 51, 52, 53, 54, 55, 56, 57]

/-- The buffer "commit 12\0tree T\n\nbody": a template without a nonce field. -/
def exObjC4 : List Nat := wrapObj ([116, 114, 101, 101, 32, 84] ++ [10, 10]
  ++ [98, 111, 100, 121])

/-- The buffer "commit 9\0\nnonce 1\n": a template holding a one-digit nonce
field whose content length sits just below a power of ten. -/
def exObjC5 : List Nat := wrapObj [10, 110, 111, 110, 99, 101, 32, 49, 10]

/-- A digest stub: 20 bytes whose lowercase hex rendering is "10" followed by
38 zero characters. -/
def digestC9 : List Nat → List Nat := fun _ => 16 :: List.replicate 19 0

end ClaimConstants

section Claims

/-- C1: a search worker (bruteForce) publishes a buffer on the winner channel
only if the digest of that exact buffer, rendered via hexInPlace, satisfies
the compiled pattern; this holds for a pool of any number of workers (each
with its own buffer, starting index, cancellation-gate observations and
candidate subsequence), so every published winner's digest matches. -/
theorem C1_publish_only_on_match
    (digest : List Nat → List Nat) (rmatch : List Nat → Bool) (alpha name : List Nat)
    (wfuel : Nat)
    (workers : List ((Nat → Bool) × List Nat × Nat × List Int)) (w : List Nat)
    (hpub : ∃ cfg ∈ workers,
      bruteForceRun digest rmatch alpha name wfuel cfg.1 cfg.2.1 cfg.2.2.1 0 cfg.2.2.2
        = some w) :
    rmatch (sumThenHex digest w) = true := by
  obtain ⟨cfg, -, h⟩ := hpub
  exact bruteForceRun_matches _ _ _ _ _ h

theorem C1_publish_only_on_match_witness :
    (∃ cfg ∈ [((fun _ => false : Nat → Bool), exObjC5, 16, [(1 : Int)])],
      bruteForceRun digestC9 (goReMatch [RTok.lit 48]) decAlpha nonceName 5
        cfg.1 cfg.2.1 cfg.2.2.1 0 cfg.2.2.2 = some exObjC5) ∧
    goReMatch [RTok.lit 48] (sumThenHex digestC9 exObjC5) = true :=
  ⟨⟨((fun _ => false : Nat → Bool), exObjC5, 16, [(1 : Int)]),
    List.mem_singleton.mpr rfl, by decide⟩,
   C1_publish_only_on_match digestC9 (goReMatch [RTok.lit 48]) decAlpha nonceName 5
     [((fun _ => false : Nat → Bool), exObjC5, 16, [(1 : Int)])] exObjC5
     ⟨((fun _ => false : Nat → Bool), exObjC5, 16, [(1 : Int)]),
      List.mem_singleton.mpr rfl, by decide⟩⟩

/-- C2 counterexample: locating the field of "commit 9\0\nnonce 1\n" yields
offset 16, and rendering candidate 12 there (the writeNonce loop, two grows,
the second crossing the 9-to-10 length-header boundary) leaves the field
reading "122": parsing back with the same alphabet yields 122, not 12 — a
stale digit remains after the grow-triggered restart, because growNonce's
header re-derivation shifts the buffer by one more byte than nonceIdx++
accounts for. -/
theorem C2_roundtrip_cex :
    (addOrFindNonce nonceName exObjC5).2 = 16 ∧
    ((writeNonce decAlpha nonceName 5 exObjC5 16 12).map
      (fun p => specParse decAlpha (fieldValue nonceName p.1))) = some 122 ∧
    (122 : Nat) ≠ 12 := by decide

/-- C2 (amended): for every t ≥ 1 and every alphabet of distinct non-space,
non-newline characters with radix ≥ 2, if the located field's width does not
exceed the number of base-r digits of t, and the length header keeps its
digit count throughout the grow-and-restart rounds, then the render loop
writes exactly the digits of t (no stale digit remains) and parsing the
field's digits back with the same alphabet recovers t. -/
theorem C2_render_roundtrip
    (alpha name pre val post : List Nat) (t g : Nat)
    (h2 : 2 ≤ alpha.length) (hnd : alpha.Nodup)
    (hal32 : ∀ b ∈ alpha, b ≠ 32) (hal10 : ∀ b ∈ alpha, b ≠ 10)
    (Hname : ∀ b ∈ name, b ≠ 10)
    (Hpre : ∀ q < pre.length,
      (nonceHdr name).isPrefixOf ((pre ++ nonceHdr name).drop q) = false)
    (ht : 1 ≤ t)
    (hval : ∀ b ∈ val, b ≠ 32)
    (hwidth : val.length + g = (digitsRev alpha t).length)
    (hnc : ∀ k ≤ g, (decDigits ((fieldContent name pre val post).length + k)).length
      = (decDigits (fieldContent name pre val post).length).length) :
    writeNonce alpha name (g + 1) (fieldObj name pre val post)
        (spacePos name pre val post + val.length) t
      = some (fieldObj name pre (msfDigits alpha t) post,
          spacePos name pre val post + (digitsRev alpha t).length) ∧
    specParse alpha (fieldValue name (fieldObj name pre (msfDigits alpha t) post)) = t := by
  refine ⟨writeNonce_exact h2 hal32 Hname Hpre g val t ht hval hwidth hnc, ?_⟩
  rw [@fieldValue_field name pre (msfDigits alpha t) post Hname Hpre
    (fun b hb => hal10 b (digitsRev_mem h2 t b (List.mem_reverse.mp hb)))]
  exact specParse_msf h2 hnd t

theorem C2_render_roundtrip_witness :
    (2 ≤ decAlpha.length ∧ decAlpha.Nodup ∧ (1 : Nat) ≤ 57
      ∧ ([49] : List Nat).length + 1 = (digitsRev decAlpha 57).length) ∧
    (writeNonce decAlpha nonceName (1 + 1) (fieldObj nonceName [] [49] [120])
        (spacePos nonceName [] [49] [120] + ([49] : List Nat).length) 57
      = some (fieldObj nonceName [] (msfDigits decAlpha 57) [120],
          spacePos nonceName [] [49] [120] + (digitsRev decAlpha 57).length) ∧
      specParse decAlpha
        (fieldValue nonceName (fieldObj nonceName [] (msfDigits decAlpha 57) [120])) = 57) :=
  ⟨by decide,
   C2_render_roundtrip decAlpha nonceName [] [49] [120] 57 1 (by decide) (by decide)
     (by decide) (by decide) (by decide) (by decide) (by decide) (by decide) (by decide)
     (by decide)⟩

/-- C3 counterexample: the emitted candidate at index 2^63 - 1 is the wrapped
value -2^63: it is negative and smaller than its predecessor 2^63 - 1, so the
emitted sequence is neither non-negative nor strictly increasing throughout. -/
theorem C3_wrap_cex :
    exploreEmit 9223372036854775807 = -9223372036854775808 ∧
    exploreEmit 9223372036854775806 = 9223372036854775807 ∧
    ¬(0 ≤ exploreEmit 9223372036854775807) ∧
    exploreEmit 9223372036854775807 < exploreEmit 9223372036854775806 := by
  have e1 : exploreEmit 9223372036854775807 = -9223372036854775808 := by
    rw [exploreEmit,
      show (9223372036854775807 + 1 : Nat) = 9223372036854775808 from by norm_num,
      exploreState_closed 9223372036854775808 (by norm_num), if_neg (by norm_num)]
    norm_num
  have e2 : exploreEmit 9223372036854775806 = 9223372036854775807 := by
    rw [exploreEmit,
      show (9223372036854775806 + 1 : Nat) = 9223372036854775807 from by norm_num,
      exploreState_closed 9223372036854775807 (by norm_num), if_pos (by norm_num)]
    norm_num
  refine ⟨e1, e2, ?_, ?_⟩
  · rw [e1]; norm_num
  · rw [e1, e2]; norm_num

/-- C3 (amended): explore's first emission is 1; before the 64-bit counter
overflows (the first 2^63 - 1 emissions) the sequence is exactly k + 1 at
index k, hence strictly increasing and non-negative; the emitted value is
never 0 before index 2^64 - 1; and at index 2^64 - 1 the counter has wrapped
back to 0, which is exactly when the loop breaks and closes the channel. -/
theorem C3_enumerator_amended :
    exploreEmit 0 = 1 ∧
    (∀ k : Nat, k + 1 < 9223372036854775808 → exploreEmit k = (k : Int) + 1) ∧
    (∀ j k : Nat, j < k → k + 1 < 9223372036854775808 →
      exploreEmit j < exploreEmit k ∧ 0 ≤ exploreEmit j) ∧
    (∀ k : Nat, k < 18446744073709551615 → exploreEmit k ≠ 0) ∧
    exploreEmit 18446744073709551615 = 0 := by
  have hclosed : ∀ k : Nat, k + 1 < 9223372036854775808 → exploreEmit k = (k : Int) + 1 := by
    intro k hk
    rw [exploreEmit, exploreState_closed (k + 1) (by omega), if_pos (by omega)]
    push_cast
    ring
  refine ⟨by norm_num [exploreEmit, exploreState, incWrap], hclosed, ?_, ?_, ?_⟩
  · intro j k hj hk
    rw [hclosed j (by omega), hclosed k (by omega)]
    constructor
    · have : (j : Int) < (k : Int) := by exact_mod_cast hj
      omega
    · omega
  · intro k hk
    rw [exploreEmit, exploreState_closed (k + 1) (by omega)]
    by_cases hlt : k + 1 < 9223372036854775808
    · rw [if_pos hlt]
      omega
    · rw [if_neg hlt]
      omega
  · rw [exploreEmit,
      show (18446744073709551615 + 1 : Nat) = 18446744073709551616 from by norm_num,
      exploreState_closed 18446744073709551616 (le_refl _), if_neg (by norm_num)]
    norm_num

theorem C3_enumerator_amended_witness :
    (3 + 1 < 9223372036854775808) ∧ exploreEmit 3 = (3 : Int) + 1 :=
  ⟨by norm_num, C3_enumerator_amended.2.1 3 (by norm_num)⟩

/-- C4 counterexample: on the field-free buffer "commit 12\0tree T\n\nbody",
addOrFindNonce inserts the line "\nnonce " with an EMPTY value (no one-digit
placeholder), and the returned offset addresses the space after the name
(byte 32, not an ASCII digit). -/
theorem C4_placeholder_cex :
    ((addOrFindNonce nonceName exObjC4).1).getD (addOrFindNonce nonceName exObjC4).2 0
      = 32 ∧
    ¬(48 ≤ ((addOrFindNonce nonceName exObjC4).1).getD
        (addOrFindNonce nonceName exObjC4).2 0 ∧
      ((addOrFindNonce nonceName exObjC4).1).getD
        (addOrFindNonce nonceName exObjC4).2 0 ≤ 57) ∧
    fieldValue nonceName (addOrFindNonce nonceName exObjC4).1 = [] := by decide

/-- C4 (amended): for every well-formed buffer whose content is
pre ++ "\n\n" ++ post, with the field absent and "\n\n" first occurring after
pre, addOrFindNonce inserts "\n<name> " — the name, a space, and an EMPTY
value — immediately before the first blank line, re-derives the outer length
header, and returns the offset of that space (one position left of where the
first digit will go); the new field's value is empty and the header invariant
holds. -/
theorem C4_locateOrCreate_amended
    (name pre post : List Nat)
    (Hname10 : ∀ b ∈ name, b ≠ 10)
    (Habsent : bytesContains (wrapObj (pre ++ [10, 10] ++ post)) (nonceHdr name) = false)
    (Hsep : ∀ q < pre.length,
      ([10, 10] : List Nat).isPrefixOf ((pre ++ [10, 10]).drop q) = false) :
    addOrFindNonce name (wrapObj (pre ++ [10, 10] ++ post))
      = (fieldObj name pre [] (10 :: post), spacePos name pre [] (10 :: post)) ∧
    (fieldObj name pre [] (10 :: post)).getD (spacePos name pre [] (10 :: post)) 0 = 32 ∧
    fieldValue name (fieldObj name pre [] (10 :: post)) = [] ∧
    headerOk (fieldObj name pre [] (10 :: post)) := by
  refine ⟨addOrFindNonce_insert Hname10 Habsent Hsep, getD_field_space 0, ?_,
    fixHeader_wrapObj _⟩
  exact fieldValue_field Hname10 (Hpre_of_absent Hname10 Habsent) (by simp)

theorem C4_locateOrCreate_amended_witness :
    (bytesContains (wrapObj ([116, 114, 101, 101, 32, 84] ++ [10, 10]
        ++ [98, 111, 100, 121])) (nonceHdr nonceName) = false) ∧
    (addOrFindNonce nonceName (wrapObj ([116, 114, 101, 101, 32, 84] ++ [10, 10]
        ++ [98, 111, 100, 121]))
      = (fieldObj nonceName [116, 114, 101, 101, 32, 84] [] (10 :: [98, 111, 100, 121]),
         spacePos nonceName [116, 114, 101, 101, 32, 84] [] (10 :: [98, 111, 100, 121])) ∧
      (fieldObj nonceName [116, 114, 101, 101, 32, 84] []
          (10 :: [98, 111, 100, 121])).getD
        (spacePos nonceName [116, 114, 101, 101, 32, 84] [] (10 :: [98, 111, 100, 121])) 0
        = 32 ∧
      fieldValue nonceName (fieldObj nonceName [116, 114, 101, 101, 32, 84] []
        (10 :: [98, 111, 100, 121])) = [] ∧
      headerOk (fieldObj nonceName [116, 114, 101, 101, 32, 84] []
        (10 :: [98, 111, 100, 121]))) :=
  ⟨by decide,
   C4_locateOrCreate_amended nonceName [116, 114, 101, 101, 32, 84] [98, 111, 100, 121]
     (by decide) (by decide) (by decide)⟩

/-- C5 counterexample: on "commit 9\0\nnonce 1\n", growing the field also
grows the length header from "9" to "10", so the rightmost-digit offset
advances by two (16 to 18), not by exactly one as the claim states. -/
theorem C5_offset_cex :
    (addOrFindNonce nonceName exObjC5).2 = 16 ∧
    (addOrFindNonce nonceName (growNonce nonceName exObjC5)).2 = 18 ∧
    (addOrFindNonce nonceName (growNonce nonceName exObjC5)).2
      ≠ (addOrFindNonce nonceName exObjC5).2 + 1 := by decide

/-- C5 (amended): growNonce inserts exactly one '0' byte immediately after
"\n<name> " — the buffer becomes the same field object with 48 prepended to
the value, so every content byte outside the value region (pre, name, post)
is unchanged and the outer header is re-derived; the field width grows by
one, multiplying the representable range by the radix r; and the
rightmost-digit offset advances by exactly one PROVIDED the content length's
decimal digit count does not change (when it does change, the offset
advances by two, as the counterexample shows). -/
theorem C5_grow_amended
    (name pre val post : List Nat) (r : Nat)
    (Hname : ∀ b ∈ name, b ≠ 10)
    (Hpre : ∀ q < pre.length,
      (nonceHdr name).isPrefixOf ((pre ++ nonceHdr name).drop q) = false)
    (Hval10 : ∀ b ∈ val, b ≠ 10)
    (hnc : (decDigits ((fieldContent name pre val post).length + 1)).length
      = (decDigits (fieldContent name pre val post).length).length) :
    growNonce name (fieldObj name pre val post) = fieldObj name pre (48 :: val) post ∧
    (addOrFindNonce name (fieldObj name pre (48 :: val) post)).2
      = (addOrFindNonce name (fieldObj name pre val post)).2 + 1 ∧
    r ^ (48 :: val).length = r * r ^ val.length ∧
    headerOk (growNonce name (fieldObj name pre val post)) := by
  have hg := @growNonce_field name pre val post Hname Hpre
  have hval48 : ∀ b ∈ (48 : Nat) :: val, b ≠ 10 := by
    intro b hb
    rcases List.mem_cons.mp hb with h | h
    · omega
    · exact Hval10 b h
  refine ⟨hg, ?_, ?_, ?_⟩
  · rw [addOrFindNonce_found Hname Hpre Hval10,
      addOrFindNonce_found Hname Hpre hval48]
    have hL1 : (fieldContent name pre (48 :: val) post).length
        = (fieldContent name pre val post).length + 1 := by
      rw [fieldContent_length, fieldContent_length]
      simp only [List.length_cons]
      omega
    have hsp : spacePos name pre (48 :: val) post = spacePos name pre val post := by
      rw [spacePos_eq, spacePos_eq, hl, hl, hL1, hnc]
    rw [hsp]
    simp only [List.length_cons]
    omega
  · rw [List.length_cons, pow_succ]
    ring
  · rw [hg]
    exact fixHeader_wrapObj _

theorem C5_grow_amended_witness :
    ((decDigits ((fieldContent nonceName [] [49] [120]).length + 1)).length
      = (decDigits (fieldContent nonceName [] [49] [120]).length).length) ∧
    (growNonce nonceName (fieldObj nonceName [] [49] [120])
      = fieldObj nonceName [] (48 :: [49]) [120] ∧
    (addOrFindNonce nonceName (fieldObj nonceName [] (48 :: [49]) [120])).2
      = (addOrFindNonce nonceName (fieldObj nonceName [] [49] [120])).2 + 1 ∧
    (10 : Nat) ^ ((48 : Nat) :: [49]).length = 10 * 10 ^ ([49] : List Nat).length ∧
    headerOk (growNonce nonceName (fieldObj nonceName [] [49] [120]))) :=
  ⟨by decide,
   C5_grow_amended nonceName [] [49] [120] 10 (by decide) (by decide) (by decide)
     (by decide)⟩

/-- C6: the header invariant — "commit <len>\0<content>" declares exactly the
content's length — holds for every buffer the search hashes: fixHeader always
establishes it, growNonce and the insert branch of addOrFindNonce re-derive
it, the find branch preserves it, and the buffer produced by a writeNonce
round on a located field (the buffer that is hashed next) satisfies it. -/
theorem C6_header_invariant :
    (∀ obj : List Nat, headerOk (fixHeader obj)) ∧
    (∀ name obj : List Nat, headerOk (growNonce name obj)) ∧
    (∀ name obj : List Nat, headerOk obj → headerOk (addOrFindNonce name obj).1) ∧
    (∀ alpha name pre val post : List Nat, ∀ fuel rel t : Nat, ∀ res : List Nat × Nat,
      2 ≤ alpha.length → (∀ b ∈ alpha, b ≠ 32) → (∀ b ∈ name, b ≠ 10) →
      (∀ q < pre.length,
        (nonceHdr name).isPrefixOf ((pre ++ nonceHdr name).drop q) = false) →
      (∀ b ∈ val, b ≠ 32) → rel ≤ val.length →
      writeNonce alpha name fuel (fieldObj name pre val post)
        (spacePos name pre val post + rel) t = some res →
      headerOk res.1) := by
  refine ⟨fixHeader_headerOk, ?_, ?_, ?_⟩
  · intro name obj
    exact fixHeader_headerOk _
  · intro name obj hok
    by_cases hc : bytesContains obj (nonceHdr name) = true
    · have h1 : (addOrFindNonce name obj).1 = obj := by
        simp only [addOrFindNonce, hc, if_true]
      rw [h1]
      exact hok
    · have hc' : bytesContains obj (nonceHdr name) = false := by
        cases h : bytesContains obj (nonceHdr name)
        · rfl
        · exact absurd h hc
      have h1 : (addOrFindNonce name obj).1
          = fixHeader (obj.take (bytesIndex obj [10, 10]).toNat ++ nonceHdr name
            ++ obj.drop (bytesIndex obj [10, 10]).toNat) := by
        simp only [addOrFindNonce, hc', Bool.false_eq_true, if_false]
      rw [h1]
      exact fixHeader_headerOk _
  · intro alpha name pre val post fuel rel t res h2 hal Hname Hpre hval hrel hrun
    obtain ⟨val2, hres, -⟩ :=
      writeNonce_shape h2 hal Hname Hpre fuel val rel t res hval hrel hrun
    rw [hres]
    exact fixHeader_wrapObj _

theorem C6_header_invariant_witness :
    headerOk exObjC4 ∧ headerOk (addOrFindNonce nonceName exObjC4).1 :=
  ⟨by unfold headerOk; decide,
   C6_header_invariant.2.2.1 nonceName exObjC4 (by unfold headerOk; decide)⟩

/-- C7: for every candidate t ≥ 1 and every well-formed located field (a
buffer whose value region and alphabet contain no space byte), the writeNonce
goto loop terminates: some fuel (number of grow-and-restart rounds) makes it
return — each restart grows the field, and the field width catches up with
t's digit count even across length-header digit-count increases. -/
theorem C7_render_terminates
    (alpha name pre val post : List Nat) (rel t : Nat)
    (h2 : 2 ≤ alpha.length) (hal : ∀ b ∈ alpha, b ≠ 32)
    (Hname : ∀ b ∈ name, b ≠ 10)
    (Hpre : ∀ q < pre.length,
      (nonceHdr name).isPrefixOf ((pre ++ nonceHdr name).drop q) = false)
    (ht : 1 ≤ t) (hval : ∀ b ∈ val, b ≠ 32) (hrel : rel ≤ val.length) :
    ∃ fuel obj2 idx2,
      writeNonce alpha name fuel (fieldObj name pre val post)
        (spacePos name pre val post + rel) t = some (obj2, idx2) :=
  writeNonce_term h2 hal Hname Hpre ((digitsRev alpha t).length) val rel t ht hval hrel
    (by omega)

theorem C7_render_terminates_witness :
    ((1 : Nat) ≤ 100 ∧ (0 : Nat) ≤ ([] : List Nat).length) ∧
    (∃ fuel obj2 idx2,
      writeNonce decAlpha nonceName fuel (fieldObj nonceName [] [] [120])
        (spacePos nonceName [] [] [120] + 0) 100 = some (obj2, idx2)) :=
  ⟨⟨by norm_num, by norm_num⟩,
   C7_render_terminates decAlpha nonceName [] [] [120] 0 100 (by decide) (by decide)
     (by decide) (by decide) (by decide) (by decide) (by decide)⟩

/-- C8: when no candidate's digest matches the pattern, a worker consumes its
whole (finite, wrap-bounded) candidate stream and returns without publishing
anything — the run yields none. The code path after this, however, blocks
main forever on the winner channel instead of reporting a search failure. -/
theorem C8_exhaustion_no_publish
    (digest : List Nat → List Nat) (rmatch : List Nat → Bool) (alpha name : List Nat)
    (wfuel : Nat) (doneAt : Nat → Bool) (obj : List Nat) (idx : Nat) (cands : List Int)
    (hnm : ∀ s, rmatch s = false) :
    bruteForceRun digest rmatch alpha name wfuel doneAt obj idx 0 cands = none :=
  bruteForceRun_noMatch hnm cands obj idx 0

theorem C8_exhaustion_no_publish_witness :
    (∀ s : List Nat, (fun _ : List Nat => false) s = false) ∧
    bruteForceRun digestC9 (fun _ => false) decAlpha nonceName 5 (fun _ => false)
      exObjC5 16 0 [1, 2, 3] = none :=
  ⟨fun _ => rfl,
   C8_exhaustion_no_publish digestC9 (fun _ => false) decAlpha nonceName 5
     (fun _ => false) exObjC5 16 [1, 2, 3] (fun _ => rfl)⟩

/-- C9 counterexample: with the unanchored pattern "0" (no leading ^), a
worker publishes a winner whose hex digest is "10…": the Go-style Match
succeeds (the pattern occurs at position 1) although the digest does NOT
satisfy the pattern anchored at its start — so "passes iff anchored match"
is false. -/
theorem C9_anchoring_cex :
    ((bruteForceRun digestC9 (goReMatch [RTok.lit 48]) decAlpha nonceName 5
        (fun _ => false) exObjC5 16 0 [1]).map
      (fun w => goReMatch [RTok.lit 48] (sumThenHex digestC9 w))) = some true ∧
    ((bruteForceRun digestC9 (goReMatch [RTok.lit 48]) decAlpha nonceName 5
        (fun _ => false) exObjC5 16 0 [1]).map
      (fun w => anchoredSat [RTok.lit 48] (sumThenHex digestC9 w))) = some false := by
  decide

/-- C9 (amended): the per-candidate test applies the compiled pattern to the
lowercase hexadecimal rendering of the digest with Go's Match semantics — a
candidate passes iff the hex string CONTAINS a match anywhere; every
published winner satisfies that containment test; when the pattern itself
begins with ^ (as the default "^[01]{7}" does) containment coincides with
matching anchored at the start; and an anchored match always implies a
pass. -/
theorem C9_match_semantics :
    (∀ (digest : List Nat → List Nat) (p : List RTok) (alpha name : List Nat)
       (wfuel : Nat) (doneAt : Nat → Bool) (obj : List Nat) (idx : Nat)
       (cands : List Int) (w : List Nat),
       bruteForceRun digest (goReMatch p) alpha name wfuel doneAt obj idx 0 cands
         = some w →
       goReMatch p (sumThenHex digest w) = true) ∧
    (∀ (p : List RTok) (s : List Nat),
       goReMatch (RTok.caret :: p) s = matchAtIdx s (RTok.caret :: p) 0) ∧
    (∀ (p : List RTok) (s : List Nat), anchoredSat p s = true → goReMatch p s = true) := by
  refine ⟨?_, fun p s => goReMatch_caret, fun p s h => goReMatch_of_anchored h⟩
  intro digest p alpha name wfuel doneAt obj idx cands w h
  exact bruteForceRun_matches _ _ _ _ _ h

theorem C9_match_semantics_witness :
    (bruteForceRun digestC9 (goReMatch [RTok.lit 48]) decAlpha nonceName 5
      (fun _ => false) exObjC5 16 0 [1] = some exObjC5) ∧
    goReMatch [RTok.lit 48] (sumThenHex digestC9 exObjC5) = true :=
  ⟨by decide,
   C9_match_semantics.1 digestC9 [RTok.lit 48] decAlpha nonceName 5 (fun _ => false)
     exObjC5 16 [1] exObjC5 (by decide)⟩

/-- C10: hexInPlace, run on the backing array of a length-n slice with
capacity at least 2n, returns exactly the lowercase hex encoding of the
original n bytes — the right-to-left loop never overwrites a byte before
reading it — and at the single call site (a 20-byte digest summed into the
capacity-40 hexBuf) it returns the digest's 40-character hex string. -/
theorem C10_hexInPlace_correct :
    (∀ (a : List Nat) (n : Nat), 2 * n ≤ a.length →
       hexInPlace a n = hexBytes (a.take n) ∧ (hexInPlace a n).length = 2 * n) ∧
    (∀ d pad : List Nat, d.length = 20 → pad.length = 20 →
       hexInPlace (d ++ pad) 20 = hexBytes d) := by
  constructor
  · intro a n h
    refine ⟨hexInPlace_spec h, ?_⟩
    rw [hexInPlace_spec h, hexBytes_length, List.length_take]
    omega
  · intro d pad hd hp
    have h : 2 * 20 ≤ (d ++ pad).length := by
      rw [List.length_append, hd, hp]
    rw [hexInPlace_spec h, List.take_left' hd]

theorem C10_hexInPlace_correct_witness :
    (2 * 3 ≤ ([255, 1, 16, 0, 0, 0] : List Nat).length) ∧
    (hexInPlace [255, 1, 16, 0, 0, 0] 3
        = hexBytes (([255, 1, 16, 0, 0, 0] : List Nat).take 3) ∧
      (hexInPlace [255, 1, 16, 0, 0, 0] 3).length = 2 * 3) :=
  ⟨by decide, C10_hexInPlace_correct.1 [255, 1, 16, 0, 0, 0] 3 (by decide)⟩

end Claims

end Gitbrute
